import Mathlib

/-!
# Merkle tree (`src/index.js`): embedding and verified properties

The JavaScript class `MerkleTree` hashes a list of strings with SHA-256, builds the layers of a
binary hash tree bottom-up (an unpartnered last node is hashed with itself), hands out inclusion
proofs (`getProof`) and checks them (`verifyProof`).

The hash primitive is a parameter of the development: a digest is a value of an arbitrary type
`D`, a buffer is a `List B`.  A digest stands for the non-empty hex string that
`digest('hex')` returns, so a digest is always truthy in JavaScript.
-/

set_option autoImplicit false

namespace Merkle

/-! ## The hash primitive -/

/-- The three operations of Node's `crypto`/`Buffer` that the source calls. -/
structure Sha (I B D : Type) where
  /-- Bytes of an input string, as `update(data)` reads them. -/
  encode : I → List B
  /-- The call `Buffer.from(d, 'hex')`: bytes of a digest. -/
  fromHex : D → List B
  /-- The call `crypto.createHash('sha256').update(buf).digest('hex')`. -/
  digest : List B → D

/-- The side a sibling is on: the string literals `'left'` and `'right'` of the source. -/
inductive Position where
  | left
  | right
deriving DecidableEq, Repr

/-- One element `{ position, hash }` of a proof. -/
structure ProofStep (D : Type) where
  position : Position
  hash : D
deriving DecidableEq, Repr

/-- The fields `this.leaves` and `this.layers` of the class. -/
structure MerkleTree (D : Type) where
  leaves : List D
  layers : List (List D)
deriving DecidableEq, Repr

section Code

variable {I B D : Type}

/-- Method `hashData(data)`: SHA-256 of the data. -/
def hashData (P : Sha I B D) (data : I) : D :=
  P.digest (P.encode data)

/-- Method `hashPair(left, right)`: SHA-256 of the bytes of `left` followed by the bytes of
`right || left`.  A digest is a non-empty string, hence truthy, so the fallback to `left`
is taken exactly when `right` is `undefined` (`none`). -/
def hashPair (P : Sha I B D) (left : D) (right : Option D) : D :=
  P.digest (P.fromHex left ++ P.fromHex (right.getD left))

/-- The `for (let i = 0; i < currentLayer.length; i += 2)` loop of `buildTree`:
the new layer made from `currentLayer`, two elements at a time; when `i + 1` is not below
the length the right operand is `currentLayer[i]` itself. -/
def nextLayer (P : Sha I B D) : List D → List D
  | [] => []
  | [l] => [hashPair P l (some l)]
  | l :: r :: rest => hashPair P l (some r) :: nextLayer P rest

/-- The `while` loop of `buildTree` run for at most `fuel` iterations: as long as the last
layer has more than one element, push the layer made from it.  The constructor starts
`this.layers` with one layer, so a last layer always exists. -/
def buildLoop (P : Sha I B D) : Nat → List (List D) → List (List D)
  | 0, layers => layers
  | fuel + 1, layers =>
    match layers.getLast? with
    | none => layers
    | some currentLayer =>
      if currentLayer.length > 1 then
        buildLoop P fuel (layers ++ [nextLayer P currentLayer])
      else layers

/-- Method `buildTree()`, as a function of `this.layers`.  A layer of length `n > 1` is
followed by a strictly shorter one, so `n` iterations are enough for the loop to leave by its
own condition (`buildTree_exit`). -/
def buildTree (P : Sha I B D) (layers : List (List D)) : List (List D) :=
  buildLoop P ((layers.getLast?.getD []).length) layers

/-- The constructor: hash every item, start from the single layer of leaves, build. -/
def MerkleTree.new (P : Sha I B D) (leaves : List I) : MerkleTree D :=
  let hashed := leaves.map (hashData P)
  { leaves := hashed, layers := buildTree P [hashed] }

/-- Method `getRoot()`: `this.layers[this.layers.length - 1][0]`; `none` is `undefined`. -/
def MerkleTree.getRoot (t : MerkleTree D) : Option D :=
  (t.layers[t.layers.length - 1]?).bind (fun top => top[0]?)

/-- The constant `pairIndex` of `getProof`: `isLeft ? currentIndex + 1 : currentIndex - 1`
with `isLeft = currentIndex % 2 === 0`. -/
def pairIndex (currentIndex : Nat) : Nat :=
  if currentIndex % 2 == 0 then currentIndex + 1 else currentIndex - 1

/-- Body of the loop of `getProof` for one layer: the step pushed (or nothing) for the
current index. -/
def proofStepAt (currentLayer : List D) (currentIndex : Nat) : List (ProofStep D) :=
  let isLeft := currentIndex % 2 == 0
  if h : pairIndex currentIndex < currentLayer.length then
    [{ position := if isLeft then Position.right else Position.left,
       hash := currentLayer[pairIndex currentIndex] }]
  else []

/-- The loop `for (let i = 0; i < this.layers.length - 1; i++)` of `getProof`, over the
layers that remain: every layer but the last one is visited, the index is halved each time. -/
def getProofLoop : List (List D) → Nat → List (ProofStep D)
  | currentLayer :: next :: rest, currentIndex =>
    proofStepAt currentLayer currentIndex ++ getProofLoop (next :: rest) (currentIndex / 2)
  | _, _ => []

/-- Method `getProof(index)`. -/
def MerkleTree.getProof (t : MerkleTree D) (index : Nat) : List (ProofStep D) :=
  getProofLoop t.layers index

/-- Body of the loop of `verifyProof`: the hash after one step. -/
def verifyStep (P : Sha I B D) (currentHash : D) (s : ProofStep D) : D :=
  match s.position with
  | Position.left => P.digest (P.fromHex s.hash ++ P.fromHex currentHash)
  | Position.right => P.digest (P.fromHex currentHash ++ P.fromHex s.hash)

/-- The loop `for (const { position, hash } of proof)` of `verifyProof`: the value of
`currentHash` when the loop ends. -/
def verifyLoop (P : Sha I B D) : D → List (ProofStep D) → D
  | currentHash, [] => currentHash
  | currentHash, s :: rest => verifyLoop P (verifyStep P currentHash s) rest

/-- Static method `verifyProof(leaf, proof, root)`. -/
def verifyProof [DecidableEq D] (P : Sha I B D) (leaf : D) (proof : List (ProofStep D))
    (root : D) : Bool :=
  decide (verifyLoop P leaf proof = root)

/-- Function `createMerkleTreeFromNames(names)`: the object `{ root, tree, layers }`. -/
def createMerkleTreeFromNames (P : Sha I B D) (names : List I) :
    Option D × MerkleTree D × List (List D) :=
  let merkleTree := MerkleTree.new P names
  (merkleTree.getRoot, merkleTree, merkleTree.layers)

end Code

/-- The list `names` of the example at the end of the source. -/
def names : List String := ["Debo", "Kenneth", "Manji", "Jerry", "victor"]

/-! ## A collision-free hash

Digests are terms: the digest of a string is an atom, the digest of two digests put side by
side is a node.  No two different inputs of these shapes share a digest. -/

/-- Term digests. -/
inductive Dig where
  | atom (s : String)
  | node (l r : Dig)
deriving DecidableEq, Repr

/-- What a buffer is made of in the term model: the text of an item or one whole digest. -/
inductive Tok where
  | text (s : String)
  | block (d : Dig)
deriving DecidableEq, Repr

/-- The digest of a buffer in the term model. -/
def termDigest : List Tok → Dig
  | [Tok.text s] => Dig.atom s
  | [Tok.block a, Tok.block b] => Dig.node a b
  | _ => Dig.atom ""

/-- The term model of SHA-256. -/
def termSha : Sha String Tok Dig where
  encode := fun s => [Tok.text s]
  fromHex := fun d => [Tok.block d]
  digest := termDigest

/-- Number of nodes of a term digest. -/
def Dig.size : Dig → Nat
  | Dig.atom _ => 0
  | Dig.node l r => l.size + r.size + 1

/-! ## Layers as a chain

For the proofs the layers are read front to back: `layersAbove P fuel cur` lists the layers
that the loop pushes after `cur`. -/

section Chain

variable {I B D : Type}

/-- The layers pushed after `cur` by at most `fuel` iterations. -/
def layersAbove (P : Sha I B D) : Nat → List D → List (List D)
  | 0, _ => []
  | fuel + 1, cur =>
    if cur.length > 1 then nextLayer P cur :: layersAbove P fuel (nextLayer P cur) else []

/-- The digest `layers[layers.length - 1][0]` of a list of layers. -/
def topOf (layers : List (List D)) : Option D :=
  (layers[layers.length - 1]?).bind (fun top => top[0]?)

/-- The way up one level for the node at `currentIndex`: over a sibling, or hashed with itself. -/
inductive PathOp (D : Type) where
  | sibling (s : ProofStep D)
  | self

/-- The parent digest that `buildTree` computes along a path operation. -/
def applyOp (P : Sha I B D) (cur : D) : PathOp D → D
  | PathOp.sibling s => verifyStep P cur s
  | PathOp.self => hashPair P cur (some cur)

/-- The path operation of one level. -/
def opAt (layer : List D) (c : Nat) : PathOp D :=
  match proofStepAt layer c with
  | [] => PathOp.self
  | s :: _ => PathOp.sibling s

/-- The path operations from a leaf to the root, one for every layer but the last. -/
def pathOps : List (List D) → Nat → List (PathOp D)
  | layer :: next :: rest, c => opAt layer c :: pathOps (next :: rest) (c / 2)
  | _, _ => []

/-- The steps a path operation leaves in a proof: the sibling step, nothing for a self-pairing. -/
def opStep : PathOp D → List (ProofStep D)
  | PathOp.sibling s => [s]
  | PathOp.self => []

/-- An operation of the right edge of the tree: a self-pairing or a sibling on the left. -/
def OnEdge (o : PathOp D) : Prop :=
  o = PathOp.self ∨ ∃ s : ProofStep D, o = PathOp.sibling s ∧ s.position = Position.left

/-- The digest `y` has `x` as a proper part: `y` is a pair hash of `x` and something, or of a
digest that has `x` as a proper part. -/
inductive BuiltFrom (P : Sha I B D) : D → D → Prop where
  | left (x y : D) : BuiltFrom P x (hashPair P x (some y))
  | right (x y : D) : BuiltFrom P y (hashPair P x (some y))
  | trans {x y z : D} : BuiltFrom P x y → BuiltFrom P y z → BuiltFrom P x z

/-- The pair hash has no collision: equal outputs come from equal pairs. -/
def PairInjective (P : Sha I B D) : Prop :=
  ∀ a b c d : D, hashPair P a (some b) = hashPair P c (some d) → a = c ∧ b = d

/-- No digest is a pair hash built from itself. -/
def Acyclic (P : Sha I B D) : Prop :=
  ∀ d : D, ¬ BuiltFrom P d d

end Chain

/-! ## Calls as the caller sees them, and the reference definitions of the specification -/

section Reference

variable {I B D : Type}

/-- The two error kinds that the specification names. -/
inductive MerkleError where
  | InvalidInput
  | IndexOutOfRange
deriving DecidableEq, Repr

/-- The call `new MerkleTree(leaves)` as its caller sees it.  Neither the constructor nor
`hashData` on strings nor `buildTree` has a `throw` or a check of its input, so the call
returns the tree. -/
def MerkleTree.construct (P : Sha I B D) (leaves : List I) : Except MerkleError (MerkleTree D) :=
  Except.ok (MerkleTree.new P leaves)

/-- The call `tree.getProof(index)` as its caller sees it.  The method has no `throw` and no
check of `index`; every array read is guarded by `pairIndex < currentLayer.length`, so the
call returns the list of steps. -/
def MerkleTree.getProofCall (t : MerkleTree D) (index : Nat) :
    Except MerkleError (List (ProofStep D)) :=
  Except.ok (t.getProof index)

/-- Proof generation in the words of the specification (section 4.3): for each layer
`k = 0 .. layers.length - 2`, with current index `i / 2 ^ k` and sibling position one above
an even index and one below an odd one, a step is appended when the sibling position lies
within the layer. -/
def generateProofSpec (layers : List (List D)) (i : Nat) : List (ProofStep D) :=
  (List.range (layers.length - 1)).flatMap (fun k =>
    let c := i / 2 ^ k
    let s := if c % 2 = 0 then c + 1 else c - 1
    match layers[k]? with
    | none => []
    | some layer =>
      if h : s < layer.length then
        [{ position := if c % 2 = 0 then Position.right else Position.left, hash := layer[s] }]
      else [])

/-- Proof verification in the words of the specification (section 4.4): the value of
`current` after all steps, for a given `combine`. -/
def verifyFoldSpec (combine : D → D → D) (leaf : D) (proof : List (ProofStep D)) : D :=
  proof.foldl (fun current step =>
    match step.position with
    | Position.left => combine step.hash current
    | Position.right => combine current step.hash) leaf

/-- The pair hash is injective in each argument: with one operand fixed, equal outputs come
from equal other operands. -/
def ArgInjective (P : Sha I B D) : Prop :=
  (∀ a b c : D, hashPair P a (some c) = hashPair P b (some c) → a = b) ∧
  (∀ a b c : D, hashPair P c (some a) = hashPair P c (some b) → a = b)

/-- A proof with the hash of step `j` replaced by `h`. -/
def replaceHash : List (ProofStep D) → Nat → D → List (ProofStep D)
  | [], _, _ => []
  | s :: rest, 0, h => { position := s.position, hash := h } :: rest
  | s :: rest, j + 1, h => s :: replaceHash rest j h

/-- The other side. -/
def Position.swap : Position → Position
  | Position.left => Position.right
  | Position.right => Position.left

/-- A proof with the side of step `j` swapped. -/
def swapSide : List (ProofStep D) → Nat → List (ProofStep D)
  | [], _ => []
  | s :: rest, 0 => { position := s.position.swap, hash := s.hash } :: rest
  | s :: rest, j + 1 => s :: swapSide rest j

/-- Whether a path operation is a self-pairing. -/
def PathOp.isSelf : PathOp D → Bool
  | PathOp.self => true
  | PathOp.sibling _ => false

/-- The self-paired levels on the path of leaf `i`: the levels `k` below the root layer at
which the sibling position of `i / 2 ^ k` lies outside layer `k`. -/
def selfPairedLevels (layers : List (List D)) (i : Nat) : List Nat :=
  (List.range (layers.length - 1)).filter
    (fun k => decide (¬ pairIndex (i / 2 ^ k) < (layers[k]?.getD []).length))

end Reference

/-! ## Lemmas on layers and paths -/

section Chain

variable {I B D : Type}

theorem nextLayer_length (P : Sha I B D) (l : List D) :
    (nextLayer P l).length = (l.length + 1) / 2 := by
  induction l using nextLayer.induct P with
  | case1 => simp [nextLayer]
  | case2 l => simp [nextLayer]
  | case3 l r rest ih =>
    simp only [nextLayer, List.length_cons, ih]
    omega

theorem nextLayer_pair (P : Sha I B D) :
    ∀ (k : Nat) (l : List D) (a b : D), l[2 * k]? = some a → l[2 * k + 1]? = some b →
      (nextLayer P l)[k]? = some (hashPair P a (some b)) := by
  intro k
  induction k with
  | zero =>
    intro l a b ha hb
    match l, ha, hb with
    | x :: y :: rest, ha, hb =>
      simp at ha hb
      simp [nextLayer, ha, hb]
  | succ k ih =>
    intro l a b ha hb
    match l, ha, hb with
    | [x], ha, hb => simp at hb
    | x :: y :: rest, ha, hb =>
      have e1 : 2 * (k + 1) = 2 * k + 1 + 1 := by omega
      have e2 : 2 * (k + 1) + 1 = 2 * k + 1 + 1 + 1 := by omega
      rw [e1] at ha
      rw [e2] at hb
      simp only [List.getElem?_cons_succ] at ha hb
      simp only [nextLayer, List.getElem?_cons_succ]
      exact ih rest a b ha hb

theorem nextLayer_self (P : Sha I B D) :
    ∀ (k : Nat) (l : List D) (a : D), l[2 * k]? = some a → l.length = 2 * k + 1 →
      (nextLayer P l)[k]? = some (hashPair P a (some a)) := by
  intro k
  induction k with
  | zero =>
    intro l a ha hlen
    match l, ha, hlen with
    | [x], ha, _ =>
      simp at ha
      simp [nextLayer, ha]
  | succ k ih =>
    intro l a ha hlen
    match l, ha, hlen with
    | x :: y :: rest, ha, hlen =>
      have e1 : 2 * (k + 1) = 2 * k + 1 + 1 := by omega
      rw [e1] at ha
      simp only [List.getElem?_cons_succ] at ha
      simp only [nextLayer, List.getElem?_cons_succ]
      apply ih rest a ha
      simp only [List.length_cons] at hlen
      omega

theorem buildLoop_append (P : Sha I B D) :
    ∀ (fuel : Nat) (pre : List (List D)) (cur : List D),
      buildLoop P fuel (pre ++ [cur]) = pre ++ cur :: layersAbove P fuel cur := by
  intro fuel
  induction fuel with
  | zero => intro pre cur; simp [buildLoop, layersAbove]
  | succ fuel ih =>
    intro pre cur
    have hl : (pre ++ [cur]).getLast? = some cur := by simp
    simp only [buildLoop, layersAbove, hl]
    by_cases h : cur.length > 1
    · simp only [h, if_true]
      rw [ih (pre ++ [cur]) (nextLayer P cur)]
      simp
    · simp only [h, if_false]

theorem buildTree_single (P : Sha I B D) (leaves : List D) :
    buildTree P [leaves] = leaves :: layersAbove P leaves.length leaves := by
  have h := buildLoop_append P leaves.length [] leaves
  simpa [buildTree] using h

theorem layersAbove_short (P : Sha I B D) (fuel : Nat) (cur : List D) (h : cur.length ≤ 1) :
    layersAbove P fuel cur = [] := by
  cases fuel with
  | zero => rfl
  | succ fuel =>
    have h2 : ¬ cur.length > 1 := by omega
    simp [layersAbove, h2]

theorem layersAbove_long (P : Sha I B D) (fuel : Nat) (cur : List D) (h : 1 < cur.length) :
    layersAbove P (fuel + 1) cur
      = nextLayer P cur :: layersAbove P fuel (nextLayer P cur) := by
  simp [layersAbove, h]

theorem nextLayer_length_le (P : Sha I B D) (fuel : Nat) (cur : List D)
    (h : cur.length ≤ fuel + 1) (h1 : 1 < cur.length) : (nextLayer P cur).length ≤ fuel := by
  rw [nextLayer_length]
  omega

theorem topOf_single (cur : List D) : topOf [cur] = cur[0]? := by
  simp [topOf]

theorem topOf_cons (cur next : List D) (rest : List (List D)) :
    topOf (cur :: next :: rest) = topOf (next :: rest) := by
  simp [topOf]

theorem proofStepAt_even (layer : List D) (c : Nat) (hc : c % 2 = 0)
    (h : c + 1 < layer.length) :
    proofStepAt layer c = [{ position := Position.right, hash := layer[c + 1] }] := by
  simp [proofStepAt, pairIndex, hc, h]

theorem proofStepAt_last (layer : List D) (c : Nat) (hc : c % 2 = 0)
    (h : ¬ c + 1 < layer.length) : proofStepAt layer c = [] := by
  simp [proofStepAt, pairIndex, hc, h]

theorem proofStepAt_odd (layer : List D) (c : Nat) (hc : c % 2 = 1) (h : c < layer.length) :
    proofStepAt layer c
      = [{ position := Position.left, hash := layer[c - 1] }] := by
  have h2 : c - 1 < layer.length := by omega
  simp [proofStepAt, pairIndex, hc, h2]

/-- One level up: the digest at index `c / 2` of the next layer is the path operation of
level `c` applied to the digest at index `c`. -/
theorem nextLayer_path (P : Sha I B D) (cur : List D) (c : Nat) (d : D)
    (h : cur[c]? = some d) : (nextLayer P cur)[c / 2]? = some (applyOp P d (opAt cur c)) := by
  have hlt : c < cur.length := by
    by_contra hn
    rw [List.getElem?_eq_none (by omega)] at h
    exact Option.noConfusion h
  rcases Nat.mod_two_eq_zero_or_one c with hc | hc
  · have e : c = 2 * (c / 2) := by omega
    by_cases hp : c + 1 < cur.length
    · have hb : cur[2 * (c / 2) + 1]? = some cur[c + 1] := by
        rw [← e]; exact List.getElem?_eq_getElem hp
      have ha : cur[2 * (c / 2)]? = some d := by rw [← e]; exact h
      rw [nextLayer_pair P (c / 2) cur d _ ha hb]
      simp [opAt, proofStepAt_even cur c hc hp, applyOp, verifyStep, hashPair]
    · have ha : cur[2 * (c / 2)]? = some d := by rw [← e]; exact h
      rw [nextLayer_self P (c / 2) cur d ha (by omega)]
      simp [opAt, proofStepAt_last cur c hc hp, applyOp]
  · have e : c = 2 * (c / 2) + 1 := by omega
    have hlt2 : c - 1 < cur.length := by omega
    have ha : cur[2 * (c / 2)]? = some cur[c - 1] := by
      have : 2 * (c / 2) = c - 1 := by omega
      rw [this]; exact List.getElem?_eq_getElem hlt2
    have hb : cur[2 * (c / 2) + 1]? = some d := by rw [← e]; exact h
    rw [nextLayer_pair P (c / 2) cur _ d ha hb]
    simp [opAt, proofStepAt_odd cur c hc hlt, applyOp, verifyStep, hashPair]

/-- The root is the leaf digest taken through all path operations. -/
theorem topOf_path (P : Sha I B D) :
    ∀ (fuel : Nat) (cur : List D) (c : Nat) (d : D), cur.length ≤ fuel → cur[c]? = some d →
      topOf (cur :: layersAbove P fuel cur)
        = some ((pathOps (cur :: layersAbove P fuel cur) c).foldl (applyOp P) d) := by
  intro fuel
  induction fuel with
  | zero =>
    intro cur c d hlen h
    have : cur = [] := List.eq_nil_of_length_eq_zero (by omega)
    subst this
    simp at h
  | succ fuel ih =>
    intro cur c d hlen h
    have hlt : c < cur.length := by
      by_contra hn
      rw [List.getElem?_eq_none (by omega)] at h
      exact Option.noConfusion h
    by_cases h1 : 1 < cur.length
    · rw [layersAbove_long P fuel cur h1, topOf_cons]
      simp only [pathOps, List.foldl_cons]
      exact ih (nextLayer P cur) (c / 2) _ (nextLayer_length_le P fuel cur hlen h1)
        (nextLayer_path P cur c d h)
    · rw [layersAbove_short P _ cur (by omega), topOf_single]
      have hc : c = 0 := by omega
      subst hc
      simp [pathOps, h]

theorem proofStepAt_eq_opStep (layer : List D) (c : Nat) :
    proofStepAt layer c = opStep (opAt layer c) := by
  unfold opAt
  by_cases h : pairIndex c < layer.length
  · simp [proofStepAt, h, opStep]
  · simp [proofStepAt, h, opStep]

theorem opAt_eq_self_iff (layer : List D) (c : Nat) :
    opAt layer c = PathOp.self ↔ ¬ pairIndex c < layer.length := by
  unfold opAt
  by_cases h : pairIndex c < layer.length
  · simp [proofStepAt, h]
  · simp [proofStepAt, h]

theorem getProofLoop_eq_ops : ∀ (layers : List (List D)) (c : Nat),
    getProofLoop layers c = (pathOps layers c).flatMap opStep
  | [], _ => by simp [getProofLoop, pathOps]
  | [_], _ => by simp [getProofLoop, pathOps]
  | layer :: next :: rest, c => by
    simp only [getProofLoop, pathOps, List.flatMap_cons]
    rw [getProofLoop_eq_ops (next :: rest) (c / 2), proofStepAt_eq_opStep]

theorem pathOps_length : ∀ (layers : List (List D)) (c : Nat),
    (pathOps layers c).length = layers.length - 1
  | [], _ => by simp [pathOps]
  | [_], _ => by simp [pathOps]
  | layer :: next :: rest, c => by
    simp only [pathOps, List.length_cons]
    rw [pathOps_length (next :: rest) (c / 2)]
    simp

theorem div_pow_succ (c k : Nat) : c / 2 / 2 ^ k = c / 2 ^ (k + 1) := by
  rw [Nat.div_div_eq_div_mul, pow_succ, Nat.mul_comm]

/-- The operation of level `k` is the one of layer `k` at index `c / 2 ^ k`. -/
theorem pathOps_get : ∀ (layers : List (List D)) (c k : Nat) (layer : List D),
    k + 1 < layers.length → layers[k]? = some layer →
      (pathOps layers c)[k]? = some (opAt layer (c / 2 ^ k))
  | [], _, _, _, hk, _ => by simp at hk
  | [_], _, _, _, hk, _ => by simp at hk
  | first :: next :: rest, c, 0, layer, _, hl => by
    simp at hl
    simp [pathOps, hl]
  | first :: next :: rest, c, k + 1, layer, hk, hl => by
    simp only [List.getElem?_cons_succ] at hl
    simp only [pathOps, List.getElem?_cons_succ]
    rw [pathOps_get (next :: rest) (c / 2) k layer (by simpa using hk) hl, div_pow_succ]

theorem getProofLoop_levels (layers : List (List D)) (c : Nat) :
    getProofLoop layers c
      = (List.range (layers.length - 1)).flatMap
          (fun k => proofStepAt (layers[k]?.getD []) (c / 2 ^ k)) := by
  rw [getProofLoop_eq_ops]
  have hops : pathOps layers c
      = (List.range (layers.length - 1)).map
          (fun k => opAt (layers[k]?.getD []) (c / 2 ^ k)) := by
    apply List.ext_getElem?
    intro k
    by_cases hk : k + 1 < layers.length
    · have hklt : k < layers.length := by omega
      have hl : layers[k]? = some layers[k] := List.getElem?_eq_getElem hklt
      rw [pathOps_get layers c k _ hk hl]
      have hr : k < layers.length - 1 := by omega
      simp [List.getElem?_map, List.getElem?_range hr, hl]
    · rw [List.getElem?_eq_none (by rw [pathOps_length]; omega)]
      rw [List.getElem?_eq_none (by simp; omega)]
  rw [hops, List.flatMap_map]
  congr 1
  funext k
  exact (proofStepAt_eq_opStep _ _).symm

theorem verifyLoop_eq_foldl (P : Sha I B D) : ∀ (proof : List (ProofStep D)) (d : D),
    verifyLoop P d proof = proof.foldl (verifyStep P) d
  | [], _ => rfl
  | s :: rest, d => by
    simp only [verifyLoop, List.foldl_cons]
    exact verifyLoop_eq_foldl P rest _

theorem verifyStep_left (P : Sha I B D) (x : D) (s : ProofStep D)
    (h : s.position = Position.left) : verifyStep P x s = hashPair P s.hash (some x) := by
  simp [verifyStep, hashPair, h]

theorem verifyStep_right (P : Sha I B D) (x : D) (s : ProofStep D)
    (h : s.position = Position.right) : verifyStep P x s = hashPair P x (some s.hash) := by
  simp [verifyStep, hashPair, h]

/-- Without a self-pairing the proof replays every path operation. -/
theorem verifyLoop_ops (P : Sha I B D) : ∀ (ops : List (PathOp D)) (d : D),
    PathOp.self ∉ ops → verifyLoop P d (ops.flatMap opStep) = ops.foldl (applyOp P) d
  | [], _, _ => rfl
  | PathOp.self :: _, _, h => by simp at h
  | PathOp.sibling s :: rest, d, h => by
    simp only [List.flatMap_cons, opStep, List.singleton_append, verifyLoop, List.foldl_cons,
      applyOp]
    exact verifyLoop_ops P rest _ (fun hm => h (List.mem_cons_of_mem _ hm))

theorem opAt_last (layer : List D) (c : Nat) (h : c + 1 = layer.length) :
    OnEdge (opAt layer c) := by
  rcases Nat.mod_two_eq_zero_or_one c with hc | hc
  · left
    unfold opAt
    rw [proofStepAt_last layer c hc (by omega)]
  · right
    refine ⟨{ position := Position.left, hash := layer[c - 1] }, ?_, rfl⟩
    unfold opAt
    rw [proofStepAt_odd layer c hc (by omega)]

/-- From the last index of a layer the path stays on the right edge. -/
theorem pathOps_edge (P : Sha I B D) :
    ∀ (fuel : Nat) (cur : List D) (c : Nat), c + 1 = cur.length →
      ∀ o ∈ pathOps (cur :: layersAbove P fuel cur) c, OnEdge o := by
  intro fuel
  induction fuel with
  | zero => intro cur c _ o ho; simp [layersAbove, pathOps] at ho
  | succ fuel ih =>
    intro cur c hc o ho
    by_cases h1 : 1 < cur.length
    · rw [layersAbove_long P fuel cur h1] at ho
      simp only [pathOps, List.mem_cons] at ho
      rcases ho with ho | ho
      · rw [ho]; exact opAt_last cur c hc
      · refine ih (nextLayer P cur) (c / 2) ?_ o ho
        rw [nextLayer_length]
        omega
    · rw [layersAbove_short P _ cur (by omega)] at ho
      simp [pathOps] at ho

theorem builtFrom_applyOp (P : Sha I B D) (x : D) (o : PathOp D) :
    BuiltFrom P x (applyOp P x o) := by
  cases o with
  | self => exact BuiltFrom.left x x
  | sibling s =>
    cases hs : s.position with
    | left =>
      simp only [applyOp]
      rw [verifyStep_left P x s hs]
      exact BuiltFrom.right _ _
    | right =>
      simp only [applyOp]
      rw [verifyStep_right P x s hs]
      exact BuiltFrom.left _ _

theorem builtFrom_foldl (P : Sha I B D) : ∀ (ops : List (PathOp D)) (x : D),
    ops ≠ [] → BuiltFrom P x (ops.foldl (applyOp P) x)
  | [], _, h => absurd rfl h
  | [o], x, _ => builtFrom_applyOp P x o
  | o :: o2 :: rest, x, _ => by
    rw [List.foldl_cons]
    exact BuiltFrom.trans (builtFrom_applyOp P x o)
      (builtFrom_foldl P (o2 :: rest) _ (List.cons_ne_nil _ _))

/-- On the right edge, fewer left steps than path operations never reach the same digest. -/
theorem edge_ne (P : Sha I B D) (hinj : PairInjective P) (hacyc : Acyclic P) :
    ∀ (ops : List (PathOp D)) (proof : List (ProofStep D)),
      (∀ o ∈ ops, OnEdge o) → (∀ s ∈ proof, s.position = Position.left) →
      proof.length < ops.length →
      ∀ e : D, proof.foldl (verifyStep P) e ≠ ops.foldl (applyOp P) e := by
  intro ops
  induction ops using List.reverseRecOn with
  | nil => intro proof _ _ hlen; simp at hlen
  | append_singleton ops o ih =>
    intro proof hops hproof hlen e heq
    rcases List.eq_nil_or_concat proof with hp | ⟨proof2, g, hp⟩
    · subst hp
      simp only [List.foldl_nil] at heq
      have hb := builtFrom_foldl P (ops ++ [o]) e (by simp)
      rw [← heq] at hb
      exact hacyc e hb
    · rw [List.concat_eq_append] at hp
      subst hp
      simp only [List.foldl_append, List.foldl_cons, List.foldl_nil] at heq
      have hg : g.position = Position.left := hproof g (by simp)
      rw [verifyStep_left P _ g hg] at heq
      have hlen2 : proof2.length < ops.length := by simpa using hlen
      have hops2 : ∀ o2 ∈ ops, OnEdge o2 := fun o2 h2 => hops o2 (by simp [h2])
      have hproof2 : ∀ s ∈ proof2, s.position = Position.left :=
        fun s h2 => hproof s (by simp [h2])
      have ho : OnEdge o := hops o (by simp)
      rcases ho with ho | ⟨s, ho, hs⟩
      · subst ho
        simp only [applyOp] at heq
        exact ih proof2 hops2 hproof2 hlen2 e (hinj _ _ _ _ heq).2
      · subst ho
        simp only [applyOp] at heq
        rw [verifyStep_left P _ s hs] at heq
        exact ih proof2 hops2 hproof2 hlen2 e (hinj _ _ _ _ heq).2

theorem flatMap_opStep_left (ops : List (PathOp D)) (h : ∀ o ∈ ops, OnEdge o) :
    ∀ s ∈ ops.flatMap opStep, s.position = Position.left := by
  intro s hs
  rw [List.mem_flatMap] at hs
  obtain ⟨o, ho, hso⟩ := hs
  rcases h o ho with h1 | ⟨s2, h1, h2⟩
  · subst h1
    simp [opStep] at hso
  · subst h1
    simp only [opStep, List.mem_singleton] at hso
    rw [hso]; exact h2

theorem flatMap_opStep_length (ops : List (PathOp D)) :
    (ops.flatMap opStep).length ≤ ops.length := by
  induction ops with
  | nil => simp
  | cons o rest ih =>
    cases o with
    | self => simp only [List.flatMap_cons, opStep, List.nil_append, List.length_cons]; omega
    | sibling s =>
      simp only [List.flatMap_cons, opStep, List.singleton_append, List.length_cons]; omega

/-- A self-pairing on the path makes the replayed proof miss the root. -/
theorem verifyLoop_ne (P : Sha I B D) (hinj : PairInjective P) (hacyc : Acyclic P) :
    ∀ (fuel : Nat) (cur : List D) (c : Nat) (d : D), cur.length ≤ fuel → cur[c]? = some d →
      PathOp.self ∈ pathOps (cur :: layersAbove P fuel cur) c →
      verifyLoop P d (getProofLoop (cur :: layersAbove P fuel cur) c)
        ≠ (pathOps (cur :: layersAbove P fuel cur) c).foldl (applyOp P) d := by
  intro fuel
  induction fuel with
  | zero => intro cur c d _ _ hs; simp [layersAbove, pathOps] at hs
  | succ fuel ih =>
    intro cur c d hlen h hs
    have hlt : c < cur.length := by
      by_contra hn
      rw [List.getElem?_eq_none (by omega)] at h
      exact Option.noConfusion h
    by_cases h1 : 1 < cur.length
    · rw [layersAbove_long P fuel cur h1] at hs ⊢
      have hnext := nextLayer_path P cur c d h
      have hlen2 := nextLayer_length_le P fuel cur hlen h1
      cases hop : opAt cur c with
      | sibling s =>
        simp only [pathOps, hop, List.mem_cons, List.foldl_cons] at hs ⊢
        rcases hs with hs | hs
        · exact PathOp.noConfusion hs
        · rw [hop] at hnext
          have hstep : proofStepAt cur c = [s] := by
            rw [proofStepAt_eq_opStep, hop]; rfl
          simp only [getProofLoop, hstep, List.singleton_append, verifyLoop]
          exact ih (nextLayer P cur) (c / 2) _ hlen2 hnext hs
      | self =>
        have hpi := (opAt_eq_self_iff cur c).1 hop
        have hc : c + 1 = cur.length := by
          unfold pairIndex at hpi
          by_cases hc2 : c % 2 = 0
          · simp [hc2] at hpi; omega
          · simp [hc2] at hpi; omega
        have hstep : proofStepAt cur c = [] := by
          rw [proofStepAt_eq_opStep, hop]; rfl
        have hedge := pathOps_edge P fuel (nextLayer P cur) (c / 2)
          (by rw [nextLayer_length]; omega)
        simp only [getProofLoop, hstep, List.nil_append, pathOps, hop]
        rw [verifyLoop_eq_foldl, getProofLoop_eq_ops]
        refine edge_ne P hinj hacyc _ _ ?_ (flatMap_opStep_left _ hedge) ?_ d
        · intro o ho
          rcases List.mem_cons.1 ho with ho | ho
          · rw [ho]; exact Or.inl rfl
          · exact hedge o ho
        · have := flatMap_opStep_length (pathOps (nextLayer P cur ::
            layersAbove P fuel (nextLayer P cur)) (c / 2))
          simp only [List.length_cons]
          omega
    · rw [layersAbove_short P _ cur (by omega)] at hs
      simp [pathOps] at hs

theorem self_mem_pathOps (layers : List (List D)) (c : Nat) :
    PathOp.self ∈ pathOps layers c ↔
      ∃ k layer, k < layers.length - 1 ∧ layers[k]? = some layer ∧
        ¬ pairIndex (c / 2 ^ k) < layer.length := by
  constructor
  · intro h
    obtain ⟨k, hk, hget⟩ := List.getElem_of_mem h
    rw [pathOps_length] at hk
    have hklt : k < layers.length := by omega
    have hl : layers[k]? = some layers[k] := List.getElem?_eq_getElem hklt
    have h2 := pathOps_get layers c k _ (by omega) hl
    rw [List.getElem?_eq_getElem (by rw [pathOps_length]; exact hk), hget] at h2
    refine ⟨k, layers[k], hk, hl, ?_⟩
    exact (opAt_eq_self_iff _ _).1 (Option.some.inj h2).symm
  · rintro ⟨k, layer, hk, hl, hp⟩
    have h2 := pathOps_get layers c k layer (by omega) hl
    rw [(opAt_eq_self_iff _ _).2 hp] at h2
    exact List.getElem?_mem h2

theorem new_layers (P : Sha I B D) (items : List I) :
    (MerkleTree.new P items).layers
      = items.map (hashData P)
          :: layersAbove P (items.map (hashData P)).length (items.map (hashData P)) := by
  simp only [MerkleTree.new]
  exact buildTree_single P _

theorem new_leaves (P : Sha I B D) (items : List I) :
    (MerkleTree.new P items).leaves = items.map (hashData P) := rfl

theorem getRoot_eq_topOf (t : MerkleTree D) : t.getRoot = topOf t.layers := rfl

/-- The root of a built tree is the digest of any leaf taken through its path operations. -/
theorem getRoot_path (P : Sha I B D) (items : List I) (i : Nat) (hi : i < items.length) :
    ∃ leaf, (MerkleTree.new P items).leaves[i]? = some leaf ∧
      (MerkleTree.new P items).getRoot
        = some ((pathOps (MerkleTree.new P items).layers i).foldl (applyOp P) leaf) := by
  have hlt : i < (items.map (hashData P)).length := by simpa using hi
  refine ⟨(items.map (hashData P))[i], List.getElem?_eq_getElem hlt, ?_⟩
  rw [getRoot_eq_topOf, new_layers]
  exact topOf_path P _ _ i _ (Nat.le_refl _) (List.getElem?_eq_getElem hlt)

theorem nextLayer_injective (P : Sha I B D) (hinj : PairInjective P) :
    ∀ (a b : List D), a.length = b.length → nextLayer P a = nextLayer P b → a = b
  | [], [], _, _ => rfl
  | [], _ :: _, hlen, _ => by simp at hlen
  | [_], [], hlen, _ => by simp at hlen
  | [x], [y], _, h => by
    simp only [nextLayer, List.cons.injEq, and_true] at h
    rw [(hinj _ _ _ _ h).1]
  | [_], _ :: _ :: _, hlen, _ => by simp at hlen
  | _ :: _ :: _, [], hlen, _ => by simp at hlen
  | _ :: _ :: _, [_], hlen, _ => by simp at hlen
  | x :: y :: rest, u :: v :: rest2, hlen, h => by
    simp only [nextLayer, List.cons.injEq] at h
    have hxy := hinj _ _ _ _ h.1
    have hrest := nextLayer_injective P hinj rest rest2 (by simpa using hlen) h.2
    rw [hxy.1, hxy.2, hrest]

/-- With a collision-free pair hash, two bottom layers of the same length under the same top
digest are equal. -/
theorem topOf_injective (P : Sha I B D) (hinj : PairInjective P) :
    ∀ (fuel : Nat) (a b : List D), a.length = b.length → a.length ≤ fuel → a ≠ [] →
      topOf (a :: layersAbove P fuel a) = topOf (b :: layersAbove P fuel b) → a = b := by
  intro fuel
  induction fuel with
  | zero =>
    intro a b _ hle hne _
    exact absurd (List.eq_nil_of_length_eq_zero (by omega)) hne
  | succ fuel ih =>
    intro a b hlen hle hne h
    by_cases h1 : 1 < a.length
    · have h1b : 1 < b.length := by omega
      rw [layersAbove_long P fuel a h1, layersAbove_long P fuel b h1b, topOf_cons,
        topOf_cons] at h
      have hn : nextLayer P a = nextLayer P b := by
        refine ih _ _ ?_ (nextLayer_length_le P fuel a hle h1) ?_ h
        · rw [nextLayer_length, nextLayer_length, hlen]
        · intro hnil
          have := nextLayer_length P a
          rw [hnil] at this
          simp at this
          omega
      exact nextLayer_injective P hinj a b hlen hn
    · rw [layersAbove_short P _ a (by omega), layersAbove_short P _ b (by omega),
        topOf_single, topOf_single] at h
      match a, b, hlen, hne, h1, h with
      | [x], [y], _, _, _, h =>
        simp only [List.getElem?_cons_zero, Option.some.injEq] at h
        rw [h]
      | [], _, _, hne, _, _ => exact absurd rfl hne
      | _ :: _ :: _, _, _, _, h1, _ => simp at h1

/-- Trees over lists of the same length with the same root have the same items, when neither
hash collides. -/
theorem getRoot_injective (P : Sha I B D) (hdata : Function.Injective (hashData P))
    (hinj : PairInjective P) (xs ys : List I) (hx : xs ≠ []) (hlen : xs.length = ys.length)
    (h : (MerkleTree.new P xs).getRoot = (MerkleTree.new P ys).getRoot) : xs = ys := by
  rw [getRoot_eq_topOf, getRoot_eq_topOf, new_layers, new_layers] at h
  have hl : (xs.map (hashData P)).length = (ys.map (hashData P)).length := by simpa using hlen
  rw [← hl] at h
  have := topOf_injective P hinj _ _ _ hl (Nat.le_refl _) (by simpa using hx) h
  exact List.map_injective_iff.2 hdata this

/-- Consecutive layers: the upper one is made from the lower one by `nextLayer`. -/
theorem chain_consecutive (P : Sha I B D) :
    ∀ (fuel : Nat) (cur : List D) (j : Nat) (a b : List D),
      (cur :: layersAbove P fuel cur)[j]? = some a →
      (cur :: layersAbove P fuel cur)[j + 1]? = some b → b = nextLayer P a := by
  intro fuel
  induction fuel with
  | zero => intro cur j a b _ hb; simp [layersAbove] at hb
  | succ fuel ih =>
    intro cur j a b ha hb
    by_cases h1 : 1 < cur.length
    · rw [layersAbove_long P fuel cur h1] at ha hb
      cases j with
      | zero =>
        simp only [List.getElem?_cons_zero, List.getElem?_cons_succ, Option.some.injEq]
          at ha hb
        rw [← ha, ← hb]
      | succ j =>
        rw [List.getElem?_cons_succ] at ha hb
        exact ih (nextLayer P cur) j a b ha hb
    · rw [layersAbove_short P _ cur (by omega)] at hb
      simp at hb

/-- The loop leaves by its own condition: the top layer of a non-empty start has one element. -/
theorem chain_top (P : Sha I B D) :
    ∀ (fuel : Nat) (cur : List D), cur.length ≤ fuel → cur ≠ [] →
      ∃ r, (cur :: layersAbove P fuel cur)[(cur :: layersAbove P fuel cur).length - 1]?
        = some [r] := by
  intro fuel
  induction fuel with
  | zero =>
    intro cur hle hne
    exact absurd (List.eq_nil_of_length_eq_zero (by omega)) hne
  | succ fuel ih =>
    intro cur hle hne
    by_cases h1 : 1 < cur.length
    · rw [layersAbove_long P fuel cur h1]
      have hn : nextLayer P cur ≠ [] := by
        intro hnil
        have := nextLayer_length P cur
        rw [hnil] at this
        simp at this
        omega
      obtain ⟨r, hr⟩ := ih (nextLayer P cur) (nextLayer_length_le P fuel cur hle h1) hn
      refine ⟨r, ?_⟩
      simpa using hr
    · rw [layersAbove_short P _ cur (by omega)]
      match cur, hne, h1 with
      | [x], _, _ => exact ⟨x, by simp⟩
      | [], hne, _ => exact absurd rfl hne
      | _ :: _ :: _, _, h1 => simp at h1

/-- Whatever the start, after `buildTree` the last layer has at most one element: the fuel
given to the loop is never what stops it. -/
theorem buildTree_exit (P : Sha I B D) (leaves : List D) :
    ∃ top, (buildTree P [leaves])[(buildTree P [leaves]).length - 1]? = some top ∧
      top.length ≤ 1 := by
  rw [buildTree_single]
  by_cases hne : leaves = []
  · subst hne
    exact ⟨[], by simp [layersAbove], by simp⟩
  · obtain ⟨r, hr⟩ := chain_top P leaves.length leaves (Nat.le_refl _) hne
    exact ⟨[r], hr, by simp⟩

end Chain

/-! ## The term model is collision-free -/

theorem termSha_hashData (s : String) : hashData termSha s = Dig.atom s := rfl

theorem termSha_hashPair (a b : Dig) : hashPair termSha a (some b) = Dig.node a b := rfl

theorem termSha_hashData_injective : Function.Injective (hashData termSha) := by
  intro a b h
  simpa [termSha_hashData] using h

theorem termSha_pairInjective : PairInjective termSha := by
  intro a b c d h
  simpa [termSha_hashPair] using h

theorem termSha_size_lt {x y : Dig} (h : BuiltFrom termSha x y) : x.size < y.size := by
  induction h with
  | left x y => rw [termSha_hashPair]; simp only [Dig.size]; omega
  | right x y => rw [termSha_hashPair]; simp only [Dig.size]; omega
  | trans _ _ ih1 ih2 => omega

theorem termSha_acyclic : Acyclic termSha := by
  intro d h
  exact Nat.lt_irrefl _ (termSha_size_lt h)

/-! ## Inclusion proofs -/

section Inclusion

variable {I B D : Type}

/-- Claim C1. In a tree built from a list of items, for a leaf index `i` below the number of
leaves (so the list is not empty) whose sibling position `pairIndex (i / 2 ^ k)` lies inside layer `k` at every layer `k` below the
root layer, `verifyProof(tree.leaves[i], tree.getProof(i), tree.getRoot())` is `true`,
whatever the hash function. -/
theorem verifyProof_paired_path [DecidableEq D] (P : Sha I B D) (items : List I) (i : Nat)
    (hi : i < items.length)
    (hpaired : ∀ k layer, k < (MerkleTree.new P items).layers.length - 1 →
      (MerkleTree.new P items).layers[k]? = some layer →
      pairIndex (i / 2 ^ k) < layer.length) :
    ∃ leaf root, (MerkleTree.new P items).leaves[i]? = some leaf ∧
      (MerkleTree.new P items).getRoot = some root ∧
      verifyProof P leaf ((MerkleTree.new P items).getProof i) root = true := by
  obtain ⟨leaf, hleaf, hroot⟩ := getRoot_path P items i hi
  refine ⟨leaf, _, hleaf, hroot, ?_⟩
  have hno : PathOp.self ∉ pathOps (MerkleTree.new P items).layers i := by
    intro hs
    obtain ⟨k, layer, hk, hl, hp⟩ := (self_mem_pathOps _ _).1 hs
    exact hp (hpaired k layer hk hl)
  simp only [verifyProof, MerkleTree.getProof, decide_eq_true_eq]
  rw [getProofLoop_eq_ops]
  exact verifyLoop_ops P _ leaf hno

/-- Witness for C1: the five names of the example, leaf 0, in the term model. -/
theorem verifyProof_paired_path_witness :
    names ≠ [] ∧ 0 < names.length ∧
    ∃ leaf root, (MerkleTree.new termSha names).leaves[0]? = some leaf ∧
      (MerkleTree.new termSha names).getRoot = some root ∧
      verifyProof termSha leaf ((MerkleTree.new termSha names).getProof 0) root = true :=
  ⟨by decide, by decide,
    verifyProof_paired_path termSha names 0 (by decide) (by
      intro k layer hk hl
      have hk3 : k < 3 := hk
      interval_cases k
      · have e : some layer = some ((MerkleTree.new termSha names).layers[0]?.getD []) :=
          hl.symm.trans (by decide)
        cases e; decide
      · have e : some layer = some ((MerkleTree.new termSha names).layers[1]?.getD []) :=
          hl.symm.trans (by decide)
        cases e; decide
      · have e : some layer = some ((MerkleTree.new termSha names).layers[2]?.getD []) :=
          hl.symm.trans (by decide)
        cases e; decide)⟩

/-- Claim C2. With a pair hash that has no collision and no digest built from itself, in a
tree built from a list of items, for a leaf index `i` below the number of leaves (so the
list is not empty): if at some level `k` below the root the path of leaf `i` is at the last
element of an odd-length layer, then `getProof` pushes no step at that level
and `verifyProof(leaves[i], getProof(i), getRoot())` is `false`. -/
theorem verifyProof_self_paired [DecidableEq D] (P : Sha I B D) (hinj : PairInjective P)
    (hacyc : Acyclic P) (items : List I) (i k : Nat) (layer : List D)
    (hi : i < items.length)
    (hk : k < (MerkleTree.new P items).layers.length - 1)
    (hl : (MerkleTree.new P items).layers[k]? = some layer)
    (hodd : layer.length % 2 = 1) (hlast : i / 2 ^ k = layer.length - 1) :
    proofStepAt layer (i / 2 ^ k) = [] ∧
    ∃ leaf root, (MerkleTree.new P items).leaves[i]? = some leaf ∧
      (MerkleTree.new P items).getRoot = some root ∧
      verifyProof P leaf ((MerkleTree.new P items).getProof i) root = false := by
  have hp : ¬ pairIndex (i / 2 ^ k) < layer.length := by
    have hc : (i / 2 ^ k) % 2 = 0 := by omega
    simp only [pairIndex, hc, beq_self_eq_true, if_true]
    omega
  refine ⟨by simp [proofStepAt, hp], ?_⟩
  obtain ⟨leaf, hleaf, hroot⟩ := getRoot_path P items i hi
  refine ⟨leaf, _, hleaf, hroot, ?_⟩
  have hs : PathOp.self ∈ pathOps (MerkleTree.new P items).layers i :=
    (self_mem_pathOps _ _).2 ⟨k, layer, hk, hl, hp⟩
  simp only [verifyProof, MerkleTree.getProof, decide_eq_false_iff_not]
  have hleaf2 : (items.map (hashData P))[i]? = some leaf := hleaf
  have := verifyLoop_ne P hinj hacyc _ _ i leaf (Nat.le_refl _) hleaf2
    (by rw [← new_layers]; exact hs)
  rw [← new_layers] at this
  exact this

/-- Witness for C2: the five names of the example, leaf 4, self-paired at level 0; its proof
is the single step `{left, layers[2][0]}`. -/
theorem verifyProof_self_paired_witness :
    PairInjective termSha ∧ Acyclic termSha ∧
    (MerkleTree.new termSha names).getProof 4
      = [{ position := Position.left,
           hash := Dig.node (Dig.node (Dig.atom "Debo") (Dig.atom "Kenneth"))
                    (Dig.node (Dig.atom "Manji") (Dig.atom "Jerry")) }] ∧
    (proofStepAt (names.map (hashData termSha)) (4 / 2 ^ 0) = [] ∧
    ∃ leaf root, (MerkleTree.new termSha names).leaves[4]? = some leaf ∧
      (MerkleTree.new termSha names).getRoot = some root ∧
      verifyProof termSha leaf ((MerkleTree.new termSha names).getProof 4) root = false) :=
  ⟨termSha_pairInjective, termSha_acyclic, by decide,
    verifyProof_self_paired termSha termSha_pairInjective termSha_acyclic names 4 0
      (names.map (hashData termSha)) (by decide) (by decide) (by decide) (by decide)
      (by decide)⟩

/-- Counterexample for C3: in the term model, where neither hash collides, the lists
`["A", "B", "C"]` and `["A", "B", "C", "C"]` differ (in length) and have the same root. -/
theorem getRoot_collision_length :
    Function.Injective (hashData termSha) ∧ PairInjective termSha ∧
    ["A", "B", "C"] ≠ [] ∧ ["A", "B", "C", "C"] ≠ ([] : List String) ∧
    ["A", "B", "C"] ≠ ["A", "B", "C", "C"] ∧
    (MerkleTree.new termSha ["A", "B", "C"]).getRoot
      = (MerkleTree.new termSha ["A", "B", "C", "C"]).getRoot :=
  ⟨termSha_hashData_injective, termSha_pairInjective, by decide, by decide, by decide,
    by decide⟩

/-- Claim C3, amended. When neither the leaf hash nor the pair hash collides, two non-empty
lists of items of the same length that differ (in an item or in the order) have different
roots. -/
theorem getRoot_ne_of_ne (P : Sha I B D) (hdata : Function.Injective (hashData P))
    (hinj : PairInjective P) (xs ys : List I) (hx : xs ≠ []) (hlen : xs.length = ys.length)
    (hne : xs ≠ ys) : (MerkleTree.new P xs).getRoot ≠ (MerkleTree.new P ys).getRoot :=
  fun h => hne (getRoot_injective P hdata hinj xs ys hx hlen h)

/-- Witness for C3 (amended): two orders of the same two names. -/
theorem getRoot_ne_of_ne_witness :
    ["Debo", "Kenneth"] ≠ ([] : List String) ∧
    ["Debo", "Kenneth"].length = ["Kenneth", "Debo"].length ∧
    ["Debo", "Kenneth"] ≠ ["Kenneth", "Debo"] ∧
    (MerkleTree.new termSha ["Debo", "Kenneth"]).getRoot
      ≠ (MerkleTree.new termSha ["Kenneth", "Debo"]).getRoot :=
  ⟨by decide, by decide, by decide,
    getRoot_ne_of_ne termSha termSha_hashData_injective termSha_pairInjective
      ["Debo", "Kenneth"] ["Kenneth", "Debo"] (by decide) (by decide) (by decide)⟩

end Inclusion

/-! ## Construction and proof generation never fail -/

section Calls

variable {I B D : Type}

theorem getRoot_isSome_iff (P : Sha I B D) (items : List I) :
    (MerkleTree.new P items).getRoot.isSome = true ↔ items ≠ [] := by
  constructor
  · intro h hnil
    subst hnil
    rw [getRoot_eq_topOf, new_layers] at h
    simp [layersAbove, topOf] at h
  · intro hne
    have hi : 0 < items.length := List.length_pos.2 hne
    obtain ⟨leaf, _, hroot⟩ := getRoot_path P items 0 hi
    rw [hroot]; rfl

/-- Counterexample for C4: the constructor called on the empty list does not fail with
`InvalidInput`; it returns the tree whose only layer is empty, and `getRoot()` of that tree
is `undefined`. -/
theorem construct_empty :
    MerkleTree.construct termSha [] = Except.ok { leaves := [], layers := [[]] } ∧
    MerkleTree.construct termSha [] ≠ Except.error MerkleError.InvalidInput ∧
    (MerkleTree.new termSha []).getRoot = none :=
  ⟨rfl, fun h => Except.noConfusion h, rfl⟩

/-- Claim C4, amended. Construction never fails: for every list of items the constructor
returns a tree whose leaves are the hashed items; from the empty list this is the tree with
the single empty layer; and `getRoot()` is a digest exactly when the list has at least one
item. -/
theorem construct_returns (P : Sha I B D) (items : List I) :
    ∃ t : MerkleTree D, MerkleTree.construct P items = Except.ok t ∧
      t.leaves = items.map (hashData P) ∧
      (items = [] → t.layers = [[]]) ∧
      (t.getRoot.isSome = true ↔ items ≠ []) := by
  refine ⟨MerkleTree.new P items, rfl, rfl, ?_, getRoot_isSome_iff P items⟩
  intro h
  subst h
  rw [new_layers]
  simp [layersAbove]

/-- Counterexample for C5: on the tree of the five names, index 5 is not a leaf index and
`getProof(5)` returns a proof of two steps. -/
theorem getProof_out_of_range :
    ¬ 5 < (MerkleTree.new termSha names).leaves.length ∧
    (MerkleTree.new termSha names).getProofCall 5
      = Except.ok
          [{ position := Position.left, hash := Dig.atom "victor" },
           { position := Position.left,
             hash := Dig.node (Dig.node (Dig.atom "Debo") (Dig.atom "Kenneth"))
                      (Dig.node (Dig.atom "Manji") (Dig.atom "Jerry")) }] ∧
    (MerkleTree.new termSha names).getProofCall 5
      ≠ Except.error MerkleError.IndexOutOfRange :=
  ⟨by decide, rfl, fun h => Except.noConfusion h⟩

/-- Claim C5, amended. Proof generation never fails: for every tree and every index, inside
`[0, leaf count)` or not, `getProof(index)` returns a list of steps, at most one for each
layer below the root layer. -/
theorem getProof_returns (t : MerkleTree D) (index : Nat) :
    ∃ proof : List (ProofStep D), t.getProofCall index = Except.ok proof ∧
      proof.length ≤ t.layers.length - 1 := by
  refine ⟨t.getProof index, rfl, ?_⟩
  simp only [MerkleTree.getProof]
  rw [getProofLoop_eq_ops, ← pathOps_length t.layers index]
  exact flatMap_opStep_length _

end Calls

/-! ## Shape of the tree -/

section Shape

variable {I B D : Type}

/-- Claim C6. After construction from a non-empty list, `leaves` and `layers[0]` are the
item-wise hash of the input, the last layer has exactly one element, and a layer of length
`L` is followed by a layer of length `ceil(L / 2)`. -/
theorem layers_shape (P : Sha I B D) (items : List I) (hne : items ≠ []) :
    (MerkleTree.new P items).leaves = items.map (hashData P) ∧
    (MerkleTree.new P items).layers[0]? = some (items.map (hashData P)) ∧
    (∃ top, (MerkleTree.new P items).layers[(MerkleTree.new P items).layers.length - 1]?
        = some top ∧ top.length = 1) ∧
    ∀ j a b, (MerkleTree.new P items).layers[j]? = some a →
      (MerkleTree.new P items).layers[j + 1]? = some b → b.length = (a.length + 1) / 2 := by
  refine ⟨rfl, by rw [new_layers]; simp, ?_, ?_⟩
  · rw [new_layers]
    obtain ⟨r, hr⟩ := chain_top P _ (items.map (hashData P)) (Nat.le_refl _)
      (by simpa using hne)
    exact ⟨[r], hr, rfl⟩
  · intro j a b ha hb
    rw [new_layers] at ha hb
    rw [chain_consecutive P _ _ j a b ha hb, nextLayer_length]

/-- Witness for C6: the five names give layers of lengths `[5, 3, 2, 1]`. -/
theorem layers_shape_witness :
    names ≠ [] ∧
    (MerkleTree.new termSha names).layers.map List.length = [5, 3, 2, 1] ∧
    ((MerkleTree.new termSha names).leaves = names.map (hashData termSha) ∧
    (MerkleTree.new termSha names).layers[0]? = some (names.map (hashData termSha)) ∧
    (∃ top, (MerkleTree.new termSha names).layers[
        (MerkleTree.new termSha names).layers.length - 1]? = some top ∧ top.length = 1) ∧
    ∀ j a b, (MerkleTree.new termSha names).layers[j]? = some a →
      (MerkleTree.new termSha names).layers[j + 1]? = some b →
      b.length = (a.length + 1) / 2) :=
  ⟨by decide, by decide, layers_shape termSha names (by decide)⟩

/-- Claim C7. In a built tree, for a layer `a` followed by a layer `b` and `k` below
`ceil(a.length / 2)`: the element `a[2k]` exists, `b[k]` is `hashPair(a[2k], a[2k+1])` when
`a[2k+1]` exists, and `b[k]` is `hashPair(a[2k], a[2k])` when `2k` is the last index of `a`
(whose length is then odd). -/
theorem parent_digest (P : Sha I B D) (items : List I) (j k : Nat) (a b : List D)
    (ha : (MerkleTree.new P items).layers[j]? = some a)
    (hb : (MerkleTree.new P items).layers[j + 1]? = some b)
    (hk : k < (a.length + 1) / 2) :
    ∃ x, a[2 * k]? = some x ∧
      (∀ y, a[2 * k + 1]? = some y → b[k]? = some (hashPair P x (some y))) ∧
      (a.length = 2 * k + 1 → b[k]? = some (hashPair P x (some x))) := by
  rw [new_layers] at ha hb
  have hbn := chain_consecutive P _ _ j a b ha hb
  subst hbn
  have hlt : 2 * k < a.length := by omega
  refine ⟨a[2 * k], List.getElem?_eq_getElem hlt, ?_, ?_⟩
  · intro y hy
    exact nextLayer_pair P k a _ y (List.getElem?_eq_getElem hlt) hy
  · intro hlen
    exact nextLayer_self P k a _ (List.getElem?_eq_getElem hlt) hlen

/-- Witness for C7: in the tree of the five names, layer 0 and layer 1, at `k = 0` (a pair)
and at `k = 2` (the last, unpartnered leaf). -/
theorem parent_digest_witness :
    (∃ x, (names.map (hashData termSha))[2 * 0]? = some x ∧
      (∀ y, (names.map (hashData termSha))[2 * 0 + 1]? = some y →
        (nextLayer termSha (names.map (hashData termSha)))[0]?
          = some (hashPair termSha x (some y))) ∧
      ((names.map (hashData termSha)).length = 2 * 0 + 1 →
        (nextLayer termSha (names.map (hashData termSha)))[0]?
          = some (hashPair termSha x (some x)))) ∧
    (∃ x, (names.map (hashData termSha))[2 * 2]? = some x ∧
      (∀ y, (names.map (hashData termSha))[2 * 2 + 1]? = some y →
        (nextLayer termSha (names.map (hashData termSha)))[2]?
          = some (hashPair termSha x (some y))) ∧
      ((names.map (hashData termSha)).length = 2 * 2 + 1 →
        (nextLayer termSha (names.map (hashData termSha)))[2]?
          = some (hashPair termSha x (some x)))) :=
  ⟨parent_digest termSha names 0 0 (names.map (hashData termSha))
      (nextLayer termSha (names.map (hashData termSha))) (by decide) (by decide) (by decide),
    parent_digest termSha names 0 2 (names.map (hashData termSha))
      (nextLayer termSha (names.map (hashData termSha))) (by decide) (by decide) (by decide)⟩

end Shape

/-! ## Verification and proof generation against their reference definitions -/

section Refinement

variable {I B D : Type}

theorem verifyStep_eq_combine (P : Sha I B D) (current : D) (step : ProofStep D) :
    verifyStep P current step
      = match step.position with
        | Position.left => hashPair P step.hash (some current)
        | Position.right => hashPair P current (some step.hash) := by
  cases h : step.position with
  | left => simp [verifyStep, hashPair, h]
  | right => simp [verifyStep, hashPair, h]

/-- Claim C8. `verifyProof(leaf, proof, root)` is `true` exactly when the fold of the
specification, run from `leaf` over the steps in order with `combine = hashPair` (the
function `buildTree` uses), ends in `root`. -/
theorem verifyProof_eq_fold [DecidableEq D] (P : Sha I B D) (leaf : D)
    (proof : List (ProofStep D)) (root : D) :
    verifyProof P leaf proof root = true ↔
      verifyFoldSpec (fun l r => hashPair P l (some r)) leaf proof = root := by
  have h : ∀ (steps : List (ProofStep D)) (d : D),
      verifyLoop P d steps = verifyFoldSpec (fun l r => hashPair P l (some r)) d steps := by
    intro steps
    induction steps with
    | nil => intro d; rfl
    | cons s rest ih =>
      intro d
      simp only [verifyLoop, verifyFoldSpec, List.foldl_cons]
      rw [ih, verifyStep_eq_combine]
      rfl
  simp only [verifyProof, decide_eq_true_eq, h]

/-- Claim C9. For every tree, in particular every built one, and every index, in particular
every valid leaf index, `getProof(i)` is the list of the reference definition: levels
`0 .. layers.length - 2` in order, current index `i / 2 ^ k`, one step exactly at the levels
whose sibling position is inside the layer. -/
theorem getProof_eq_reference (t : MerkleTree D) (i : Nat) :
    t.getProof i = generateProofSpec t.layers i := by
  simp only [MerkleTree.getProof, generateProofSpec]
  rw [getProofLoop_levels]
  congr 1
  funext k
  cases hl : t.layers[k]? with
  | none => simp [proofStepAt]
  | some layer =>
    simp only [Option.getD_some, proofStepAt, pairIndex, beq_iff_eq]

/-- Claim C10. The tree built from the single item `x` has exactly one layer, its root is
`hashData(x)`, `getProof(0)` is empty, `verifyProof(hashData(x), [], hashData(x))` is `true`,
and `verifyProof(d, [], r)` is `true` exactly when `d = r`. -/
theorem single_leaf [DecidableEq D] (P : Sha I B D) (x : I) :
    (MerkleTree.new P [x]).layers = [[hashData P x]] ∧
    (MerkleTree.new P [x]).getRoot = some (hashData P x) ∧
    (MerkleTree.new P [x]).getProof 0 = [] ∧
    verifyProof P (hashData P x) [] (hashData P x) = true ∧
    ∀ d r : D, verifyProof P d [] r = true ↔ d = r := by
  have hl : (MerkleTree.new P [x]).layers = [[hashData P x]] := by
    rw [new_layers]
    simp [layersAbove]
  refine ⟨hl, ?_, ?_, ?_, ?_⟩
  · rw [getRoot_eq_topOf, hl]; rfl
  · simp only [MerkleTree.getProof, hl, getProofLoop]
  · simp [verifyProof, verifyLoop]
  · intro d r
    simp [verifyProof, verifyLoop]

/-- Claim C11. The tree built from `[A, B]` has root `hashPair(hashData(A), hashData(B))`,
`getProof(0)` is `[{right, hashData(B)}]` and `getProof(1)` is `[{left, hashData(A)}]`. -/
theorem two_leaves (P : Sha I B D) (A B : I) :
    (MerkleTree.new P [A, B]).getRoot
      = some (hashPair P (hashData P A) (some (hashData P B))) ∧
    (MerkleTree.new P [A, B]).getProof 0
      = [{ position := Position.right, hash := hashData P B }] ∧
    (MerkleTree.new P [A, B]).getProof 1
      = [{ position := Position.left, hash := hashData P A }] := by
  have hl : (MerkleTree.new P [A, B]).layers
      = [[hashData P A, hashData P B],
         [hashPair P (hashData P A) (some (hashData P B))]] := by
    rw [new_layers]
    simp [layersAbove, nextLayer]
  refine ⟨?_, ?_, ?_⟩
  · rw [getRoot_eq_topOf, hl]; rfl
  · simp [MerkleTree.getProof, hl, getProofLoop, proofStepAt, pairIndex]
  · simp [MerkleTree.getProof, hl, getProofLoop, proofStepAt, pairIndex]

end Refinement

/-! ## Tampering -/

section Tamper

variable {I B D : Type}

theorem argInjective_of_pairInjective (P : Sha I B D) (h : PairInjective P) :
    ArgInjective P :=
  ⟨fun _ _ _ e => (h _ _ _ _ e).1, fun _ _ _ e => (h _ _ _ _ e).2⟩

theorem verifyStep_inj_current (P : Sha I B D) (h : ArgInjective P) (x y : D)
    (s : ProofStep D) (e : verifyStep P x s = verifyStep P y s) : x = y := by
  cases hs : s.position with
  | left =>
    rw [verifyStep_left P x s hs, verifyStep_left P y s hs] at e
    exact h.2 _ _ _ e
  | right =>
    rw [verifyStep_right P x s hs, verifyStep_right P y s hs] at e
    exact h.1 _ _ _ e

theorem verifyLoop_inj (P : Sha I B D) (h : ArgInjective P) :
    ∀ (proof : List (ProofStep D)) (x y : D),
      verifyLoop P x proof = verifyLoop P y proof → x = y
  | [], _, _, e => e
  | s :: rest, x, y, e =>
    verifyStep_inj_current P h x y s (verifyLoop_inj P h rest _ _ e)

theorem verifyStep_inj_hash (P : Sha I B D) (h : ArgInjective P) (x : D) (pos : Position)
    (h1 h2 : D)
    (e : verifyStep P x { position := pos, hash := h1 }
        = verifyStep P x { position := pos, hash := h2 }) : h1 = h2 := by
  cases pos with
  | left =>
    rw [verifyStep_left P x _ rfl, verifyStep_left P x _ rfl] at e
    exact h.1 _ _ _ e
  | right =>
    rw [verifyStep_right P x _ rfl, verifyStep_right P x _ rfl] at e
    exact h.2 _ _ _ e

theorem verifyLoop_replaceHash (P : Sha I B D) (h : ArgInjective P) :
    ∀ (proof : List (ProofStep D)) (j : Nat) (s : ProofStep D) (d leaf : D),
      proof[j]? = some s → d ≠ s.hash →
      verifyLoop P leaf (replaceHash proof j d) ≠ verifyLoop P leaf proof
  | [], _, _, _, _, hj, _ => by simp at hj
  | s0 :: rest, 0, s, d, leaf, hj, hd => by
    simp only [List.getElem?_cons_zero, Option.some.injEq] at hj
    subst hj
    simp only [replaceHash, verifyLoop]
    intro e
    have e2 := verifyLoop_inj P h rest _ _ e
    exact hd (verifyStep_inj_hash P h leaf s0.position d s0.hash e2)
  | s0 :: rest, j + 1, s, d, leaf, hj, hd => by
    rw [List.getElem?_cons_succ] at hj
    simp only [replaceHash, verifyLoop]
    exact verifyLoop_replaceHash P h rest j s d _ hj hd

theorem verifyStep_swap (P : Sha I B D) (h : PairInjective P) (x : D) (s : ProofStep D) :
    verifyStep P x { position := s.position.swap, hash := s.hash } = verifyStep P x s ↔
      s.hash = x := by
  cases hs : s.position with
  | left =>
    rw [verifyStep_right P x _ rfl, verifyStep_left P x s hs]
    constructor
    · intro e; exact ((h _ _ _ _ e).1).symm
    · intro e; simp only [e]
  | right =>
    rw [verifyStep_left P x _ rfl, verifyStep_right P x s hs]
    constructor
    · intro e; exact (h _ _ _ _ e).1
    · intro e; simp only [e]

theorem verifyLoop_swapSide (P : Sha I B D) (h : PairInjective P) :
    ∀ (proof : List (ProofStep D)) (j : Nat) (s : ProofStep D) (leaf : D),
      proof[j]? = some s →
      (verifyLoop P leaf (swapSide proof j) = verifyLoop P leaf proof ↔
        s.hash = verifyLoop P leaf (proof.take j))
  | [], _, _, _, hj => by simp at hj
  | s0 :: rest, 0, s, leaf, hj => by
    simp only [List.getElem?_cons_zero, Option.some.injEq] at hj
    subst hj
    simp only [swapSide, verifyLoop, List.take_zero]
    rw [← verifyStep_swap P h leaf s0]
    constructor
    · intro e
      exact verifyLoop_inj P (argInjective_of_pairInjective P h) rest _ _ e
    · intro e
      rw [e]
  | s0 :: rest, j + 1, s, leaf, hj => by
    rw [List.getElem?_cons_succ] at hj
    simp only [swapSide, verifyLoop, List.take_succ_cons]
    exact verifyLoop_swapSide P h rest j s _ hj

/-- Claim C12. With a pair hash injective in each argument, if
`verifyProof(leaf, proof, root)` is `true`, then it is `false` after `leaf` is replaced by
another digest, after the hash of any one step is replaced by another digest, and after
`root` is replaced by another digest. -/
theorem tamper_digest [DecidableEq D] (P : Sha I B D) (hinj : ArgInjective P) (leaf : D)
    (proof : List (ProofStep D)) (root : D) (hv : verifyProof P leaf proof root = true) :
    (∀ leaf2, leaf2 ≠ leaf → verifyProof P leaf2 proof root = false) ∧
    (∀ j s d, proof[j]? = some s → d ≠ s.hash →
      verifyProof P leaf (replaceHash proof j d) root = false) ∧
    (∀ root2, root2 ≠ root → verifyProof P leaf proof root2 = false) := by
  simp only [verifyProof, decide_eq_true_eq] at hv
  refine ⟨?_, ?_, ?_⟩
  · intro leaf2 hne
    simp only [verifyProof, decide_eq_false_iff_not]
    intro e
    exact hne (verifyLoop_inj P hinj proof _ _ (e.trans hv.symm))
  · intro j s d hj hd
    simp only [verifyProof, decide_eq_false_iff_not]
    rw [← hv]
    exact verifyLoop_replaceHash P hinj proof j s d leaf hj hd
  · intro root2 hne
    simp only [verifyProof, decide_eq_false_iff_not]
    rw [hv]
    exact fun e => hne e.symm

/-- Witness for C12: the tree of the five names, leaf 0 with its proof and the root. -/
theorem tamper_digest_witness :
    ArgInjective termSha ∧
    verifyProof termSha (Dig.atom "Debo") ((MerkleTree.new termSha names).getProof 0)
      (((MerkleTree.new termSha names).getRoot).getD (Dig.atom "")) = true ∧
    ((∀ leaf2, leaf2 ≠ Dig.atom "Debo" →
      verifyProof termSha leaf2 ((MerkleTree.new termSha names).getProof 0)
        (((MerkleTree.new termSha names).getRoot).getD (Dig.atom "")) = false) ∧
    (∀ j s d, ((MerkleTree.new termSha names).getProof 0)[j]? = some s → d ≠ s.hash →
      verifyProof termSha (Dig.atom "Debo")
        (replaceHash ((MerkleTree.new termSha names).getProof 0) j d)
        (((MerkleTree.new termSha names).getRoot).getD (Dig.atom "")) = false) ∧
    (∀ root2, root2 ≠ ((MerkleTree.new termSha names).getRoot).getD (Dig.atom "") →
      verifyProof termSha (Dig.atom "Debo") ((MerkleTree.new termSha names).getProof 0)
        root2 = false)) :=
  ⟨argInjective_of_pairInjective termSha termSha_pairInjective, by decide,
    tamper_digest termSha (argInjective_of_pairInjective termSha termSha_pairInjective)
      (Dig.atom "Debo") ((MerkleTree.new termSha names).getProof 0)
      (((MerkleTree.new termSha names).getRoot).getD (Dig.atom "")) (by decide)⟩

/-- Counterexample for C13: in the tree built from two equal items `["A", "A"]` the proof of
leaf 0 is `[{right, hashData("A")}]`; it verifies, and it still verifies after the side of
its step is swapped, although the pair hash of the term model has no collision. -/
theorem swap_side_undetected :
    PairInjective termSha ∧
    (MerkleTree.new termSha ["A", "A"]).leaves[0]? = some (Dig.atom "A") ∧
    (MerkleTree.new termSha ["A", "A"]).getRoot
      = some (Dig.node (Dig.atom "A") (Dig.atom "A")) ∧
    (MerkleTree.new termSha ["A", "A"]).getProof 0
      = [{ position := Position.right, hash := Dig.atom "A" }] ∧
    verifyProof termSha (Dig.atom "A") ((MerkleTree.new termSha ["A", "A"]).getProof 0)
      (Dig.node (Dig.atom "A") (Dig.atom "A")) = true ∧
    swapSide ((MerkleTree.new termSha ["A", "A"]).getProof 0) 0
      = [{ position := Position.left, hash := Dig.atom "A" }] ∧
    verifyProof termSha (Dig.atom "A")
      (swapSide ((MerkleTree.new termSha ["A", "A"]).getProof 0) 0)
      (Dig.node (Dig.atom "A") (Dig.atom "A")) = true :=
  ⟨termSha_pairInjective, by decide, by decide, by decide, by decide, by decide, by decide⟩

/-- Claim C13, amended. With a collision-free pair hash, if `verifyProof(leaf, proof, root)`
is `true` and step `j` of the proof is `s`, then after the side of step `j` is swapped
`verifyProof` is `false` exactly when the hash of `s` differs from the running digest that
the verification has reached before step `j`. -/
theorem tamper_side [DecidableEq D] (P : Sha I B D) (hinj : PairInjective P) (leaf : D)
    (proof : List (ProofStep D)) (root : D) (j : Nat) (s : ProofStep D)
    (hv : verifyProof P leaf proof root = true) (hj : proof[j]? = some s) :
    verifyProof P leaf (swapSide proof j) root = false ↔
      s.hash ≠ verifyLoop P leaf (proof.take j) := by
  simp only [verifyProof, decide_eq_true_eq] at hv
  simp only [verifyProof, decide_eq_false_iff_not]
  rw [← hv, verifyLoop_swapSide P hinj proof j s leaf hj]

/-- Witness for C13 (amended): the tree of the five names, leaf 0, step 0 (the sibling
`hashData("Kenneth")` differs from the running digest `hashData("Debo")`). -/
theorem tamper_side_witness :
    PairInjective termSha ∧
    verifyProof termSha (Dig.atom "Debo") ((MerkleTree.new termSha names).getProof 0)
      (((MerkleTree.new termSha names).getRoot).getD (Dig.atom "")) = true ∧
    (verifyProof termSha (Dig.atom "Debo")
        (swapSide ((MerkleTree.new termSha names).getProof 0) 0)
        (((MerkleTree.new termSha names).getRoot).getD (Dig.atom "")) = false ↔
      (ProofStep.mk Position.right (Dig.atom "Kenneth")).hash
        ≠ verifyLoop termSha (Dig.atom "Debo")
            (((MerkleTree.new termSha names).getProof 0).take 0)) :=
  ⟨termSha_pairInjective, by decide,
    tamper_side termSha termSha_pairInjective (Dig.atom "Debo")
      ((MerkleTree.new termSha names).getProof 0)
      (((MerkleTree.new termSha names).getRoot).getD (Dig.atom "")) 0
      (ProofStep.mk Position.right (Dig.atom "Kenneth")) (by decide) (by decide)⟩

/-- Claim C14. `hashPair(left, right)` is the digest of the bytes of `left` followed by the
bytes of `right`, in this order, and with a collision-free pair hash
`hashPair(a, b)` differs from `hashPair(b, a)` whenever `a` and `b` differ. -/
theorem hashPair_ordered (P : Sha I B D) :
    (∀ left right : D,
      hashPair P left (some right) = P.digest (P.fromHex left ++ P.fromHex right)) ∧
    (PairInjective P → ∀ a b : D, a ≠ b →
      hashPair P a (some b) ≠ hashPair P b (some a)) :=
  ⟨fun _ _ => rfl, fun hinj _ _ hab e => hab (hinj _ _ _ _ e).1⟩

/-- Witness for C14: two different names in the term model. -/
theorem hashPair_ordered_witness :
    PairInjective termSha ∧ Dig.atom "Debo" ≠ Dig.atom "Kenneth" ∧
    hashPair termSha (Dig.atom "Debo") (some (Dig.atom "Kenneth"))
      ≠ hashPair termSha (Dig.atom "Kenneth") (some (Dig.atom "Debo")) :=
  ⟨termSha_pairInjective, by decide,
    (hashPair_ordered termSha).2 termSha_pairInjective (Dig.atom "Debo")
      (Dig.atom "Kenneth") (by decide)⟩

end Tamper

/-! ## Paths, proof lengths and height -/

section Height

variable {I B D : Type}

/-- The index halved `k` times stays inside layer `k`. -/
theorem chain_index_lt (P : Sha I B D) :
    ∀ (k fuel : Nat) (cur : List D) (c : Nat) (layer : List D), c < cur.length →
      (cur :: layersAbove P fuel cur)[k]? = some layer → c / 2 ^ k < layer.length := by
  intro k
  induction k with
  | zero =>
    intro fuel cur c layer hc hl
    simp only [List.getElem?_cons_zero, Option.some.injEq] at hl
    subst hl
    simpa using hc
  | succ k ih =>
    intro fuel cur c layer hc hl
    cases fuel with
    | zero => simp [layersAbove] at hl
    | succ fuel =>
      by_cases h1 : 1 < cur.length
      · rw [layersAbove_long P fuel cur h1, List.getElem?_cons_succ] at hl
        have hc2 : c / 2 < (nextLayer P cur).length := by
          rw [nextLayer_length]; omega
        have := ih fuel (nextLayer P cur) (c / 2) layer hc2 hl
        rwa [div_pow_succ] at this
      · rw [layersAbove_short P _ cur (by omega)] at hl
        simp at hl

theorem pairIndex_outside_iff (c len : Nat) (hc : c < len) :
    ¬ pairIndex c < len ↔ c % 2 = 0 ∧ len % 2 = 1 ∧ c = len - 1 := by
  by_cases h : c % 2 = 0
  · have hp : pairIndex c = c + 1 := by simp [pairIndex, h]
    rw [hp]
    omega
  · have hp : pairIndex c = c - 1 := by simp [pairIndex, h]
    rw [hp]
    omega

theorem pathOps_eq_map (layers : List (List D)) (c : Nat) :
    pathOps layers c
      = (List.range (layers.length - 1)).map
          (fun k => opAt (layers[k]?.getD []) (c / 2 ^ k)) := by
  apply List.ext_getElem?
  intro k
  by_cases hk : k + 1 < layers.length
  · have hklt : k < layers.length := by omega
    have hl : layers[k]? = some layers[k] := List.getElem?_eq_getElem hklt
    rw [pathOps_get layers c k _ hk hl]
    have hr : k < layers.length - 1 := by omega
    simp [List.getElem?_map, List.getElem?_range hr, hl]
  · rw [List.getElem?_eq_none (by rw [pathOps_length]; omega)]
    rw [List.getElem?_eq_none (by simp; omega)]

theorem isSelf_opAt (layer : List D) (c : Nat) :
    (opAt layer c).isSelf = decide (¬ pairIndex c < layer.length) := by
  unfold opAt
  by_cases h : pairIndex c < layer.length
  · simp [proofStepAt, h, PathOp.isSelf]
  · simp [proofStepAt, h, PathOp.isSelf]

theorem countP_isSelf (layers : List (List D)) (c : Nat) :
    (pathOps layers c).countP PathOp.isSelf = (selfPairedLevels layers c).length := by
  rw [pathOps_eq_map, List.countP_map, List.countP_eq_length_filter, selfPairedLevels]
  congr 2
  funext k
  exact isSelf_opAt _ _

theorem opStep_length_add (ops : List (PathOp D)) :
    (ops.flatMap opStep).length + ops.countP PathOp.isSelf = ops.length := by
  induction ops with
  | nil => rfl
  | cons o rest ih =>
    cases o with
    | self =>
      simp only [List.flatMap_cons, opStep, List.nil_append, List.countP_cons,
        PathOp.isSelf, if_true, List.length_cons]
      omega
    | sibling s =>
      simp only [List.flatMap_cons, opStep, List.singleton_append, List.countP_cons,
        PathOp.isSelf, Bool.false_eq_true, if_false, List.length_cons]
      omega

/-- The length of a proof and the number of self-paired levels add up to the number of
levels. -/
theorem getProof_length_add (t : MerkleTree D) (i : Nat) :
    (t.getProof i).length + (selfPairedLevels t.layers i).length = t.layers.length - 1 := by
  simp only [MerkleTree.getProof]
  rw [getProofLoop_eq_ops, ← countP_isSelf, opStep_length_add, pathOps_length]

/-- The layer directly below the top layer has exactly two elements. -/
theorem chain_below_top (P : Sha I B D) :
    ∀ (fuel : Nat) (cur : List D), cur.length ≤ fuel → 1 < cur.length →
      ∃ pen, (cur :: layersAbove P fuel cur)[(cur :: layersAbove P fuel cur).length - 2]?
        = some pen ∧ pen.length = 2 := by
  intro fuel
  induction fuel with
  | zero => intro cur hle h1; omega
  | succ fuel ih =>
    intro cur hle h1
    rw [layersAbove_long P fuel cur h1]
    have hlen2 := nextLayer_length_le P fuel cur hle h1
    by_cases h2 : 1 < (nextLayer P cur).length
    · obtain ⟨pen, hp, hpl⟩ := ih (nextLayer P cur) hlen2 h2
      refine ⟨pen, ?_, hpl⟩
      have hpos : 2 ≤ (nextLayer P cur :: layersAbove P fuel (nextLayer P cur)).length := by
        cases fuel with
        | zero => omega
        | succ f => rw [layersAbove_long P f _ h2]; simp
      have e : (cur :: nextLayer P cur :: layersAbove P fuel (nextLayer P cur)).length - 2
          = ((nextLayer P cur :: layersAbove P fuel (nextLayer P cur)).length - 2) + 1 := by
        simp only [List.length_cons] at hpos ⊢
        omega
      rw [e, List.getElem?_cons_succ]
      exact hp
    · rw [layersAbove_short P _ _ (by omega)]
      refine ⟨cur, by simp, ?_⟩
      have := nextLayer_length P cur
      omega

/-- No self-pairing on the path of leaf 0. -/
theorem pathOps_zero (P : Sha I B D) :
    ∀ (fuel : Nat) (cur : List D),
      PathOp.self ∉ pathOps (cur :: layersAbove P fuel cur) 0 := by
  intro fuel
  induction fuel with
  | zero => intro cur h; simp [layersAbove, pathOps] at h
  | succ fuel ih =>
    intro cur h
    by_cases h1 : 1 < cur.length
    · rw [layersAbove_long P fuel cur h1] at h
      simp only [pathOps, List.mem_cons, Nat.zero_div] at h
      rcases h with h | h
      · have := (opAt_eq_self_iff cur 0).1 h.symm
        simp [pairIndex] at this
        omega
      · exact ih (nextLayer P cur) h
    · rw [layersAbove_short P _ cur (by omega)] at h
      simp [pathOps] at h

theorem layersAbove_length (P : Sha I B D) :
    ∀ (fuel : Nat) (cur : List D), cur.length ≤ fuel →
      (layersAbove P fuel cur).length = Nat.clog 2 cur.length := by
  intro fuel
  induction fuel with
  | zero =>
    intro cur hle
    rw [Nat.clog_of_right_le_one (by omega)]
    rfl
  | succ fuel ih =>
    intro cur hle
    by_cases h1 : 1 < cur.length
    · have e : Nat.clog 2 cur.length = Nat.clog 2 ((cur.length + 2 - 1) / 2) + 1 :=
        Nat.clog_of_two_le (by omega) (by omega)
      rw [layersAbove_long P fuel cur h1, List.length_cons,
        ih _ (nextLayer_length_le P fuel cur hle h1), nextLayer_length, e]
      rfl
    · rw [layersAbove_short P _ cur (by omega), Nat.clog_of_right_le_one (by omega)]
      rfl

/-- More fuel than the length of the layer changes nothing. -/
theorem layersAbove_fuel (P : Sha I B D) :
    ∀ (f1 f2 : Nat) (cur : List D), cur.length ≤ f1 → cur.length ≤ f2 →
      layersAbove P f1 cur = layersAbove P f2 cur := by
  intro f1
  induction f1 with
  | zero =>
    intro f2 cur h1 _
    rw [layersAbove_short P 0 cur (by omega), layersAbove_short P f2 cur (by omega)]
  | succ f1 ih =>
    intro f2 cur h1 h2
    by_cases hl : 1 < cur.length
    · cases f2 with
      | zero => omega
      | succ f2 =>
        rw [layersAbove_long P f1 cur hl, layersAbove_long P f2 cur hl,
          ih f2 _ (nextLayer_length_le P f1 cur h1 hl) (nextLayer_length_le P f2 cur h2 hl)]
    · rw [layersAbove_short P _ cur (by omega), layersAbove_short P f2 cur (by omega)]

theorem nextLayer_append_even (P : Sha I B D) :
    ∀ (l r : List D), l.length % 2 = 0 →
      nextLayer P (l ++ r) = nextLayer P l ++ nextLayer P r
  | [], r, _ => by simp [nextLayer]
  | [_], _, h => by simp at h
  | x :: y :: rest, r, h => by
    have h2 : rest.length % 2 = 0 := by
      simp only [List.length_cons] at h
      omega
    show nextLayer P (x :: y :: (rest ++ r)) = _
    simp only [nextLayer]
    rw [nextLayer_append_even P rest r h2]
    rfl

/-- In a tree over `2 ^ k` leaves there are `k + 1` layers and every layer below the top
has even length. -/
theorem chain_pow_two (P : Sha I B D) :
    ∀ (k fuel : Nat) (cur : List D), cur.length = 2 ^ k → cur.length ≤ fuel →
      (cur :: layersAbove P fuel cur).length = k + 1 ∧
      ∀ j layer, j < (cur :: layersAbove P fuel cur).length - 1 →
        (cur :: layersAbove P fuel cur)[j]? = some layer → layer.length % 2 = 0 := by
  intro k
  induction k with
  | zero =>
    intro fuel cur hlen _
    rw [layersAbove_short P _ cur (by simp [hlen])]
    exact ⟨rfl, fun j layer hj _ => by simp at hj⟩
  | succ k ih =>
    intro fuel cur hlen hle
    have hpos : 0 < 2 ^ k := Nat.two_pow_pos k
    have h2 : cur.length = 2 * 2 ^ k := by rw [hlen, pow_succ]; omega
    have h1 : 1 < cur.length := by omega
    cases fuel with
    | zero => omega
    | succ fuel =>
      rw [layersAbove_long P fuel cur h1]
      have hn : (nextLayer P cur).length = 2 ^ k := by rw [nextLayer_length]; omega
      obtain ⟨hL, hE⟩ := ih fuel (nextLayer P cur) hn (by omega)
      refine ⟨by simp only [List.length_cons] at hL ⊢; omega, ?_⟩
      intro j layer hj hl
      cases j with
      | zero =>
        simp only [List.getElem?_cons_zero, Option.some.injEq] at hl
        subst hl
        omega
      | succ j =>
        rw [List.getElem?_cons_succ] at hl
        refine hE j layer ?_ hl
        simp only [List.length_cons] at hj ⊢
        omega

/-- Without a self-pairing on its path a leaf verifies, with one step for each level. -/
theorem verifyProof_no_self [DecidableEq D] (P : Sha I B D) (items : List I) (i : Nat)
    (hi : i < items.length)
    (hno : PathOp.self ∉ pathOps (MerkleTree.new P items).layers i) :
    ((MerkleTree.new P items).getProof i).length = (MerkleTree.new P items).layers.length - 1 ∧
    ∃ leaf root, (MerkleTree.new P items).leaves[i]? = some leaf ∧
      (MerkleTree.new P items).getRoot = some root ∧
      verifyProof P leaf ((MerkleTree.new P items).getProof i) root = true := by
  constructor
  · have h := opStep_length_add (pathOps (MerkleTree.new P items).layers i)
    have hz : (pathOps (MerkleTree.new P items).layers i).countP PathOp.isSelf = 0 := by
      rw [List.countP_eq_zero]
      intro o ho hs
      cases o with
      | self => exact hno ho
      | sibling s => simp [PathOp.isSelf] at hs
    rw [hz, pathOps_length] at h
    simp only [MerkleTree.getProof]
    rw [getProofLoop_eq_ops]
    exact h
  · obtain ⟨leaf, hleaf, hroot⟩ := getRoot_path P items i hi
    refine ⟨leaf, _, hleaf, hroot, ?_⟩
    simp only [verifyProof, MerkleTree.getProof, decide_eq_true_eq]
    rw [getProofLoop_eq_ops]
    exact verifyLoop_ops P _ leaf hno

/-- Claim C15. In a tree built from a list of items, for a valid leaf index `i` and a level
`k` below the root layer, the current index `i / 2 ^ k` is inside layer `k`; the sibling
position is outside layer `k` exactly when the current index is even, the layer has odd
length and the current index is its last one; and then the parent in layer `k + 1` is the
node hashed with itself. -/
theorem path_in_bounds (P : Sha I B D) (items : List I) (i k : Nat) (layer : List D)
    (hi : i < items.length) (hk : k < (MerkleTree.new P items).layers.length - 1)
    (hl : (MerkleTree.new P items).layers[k]? = some layer) :
    i / 2 ^ k < layer.length ∧
    (¬ pairIndex (i / 2 ^ k) < layer.length ↔
      (i / 2 ^ k) % 2 = 0 ∧ layer.length % 2 = 1 ∧ i / 2 ^ k = layer.length - 1) ∧
    (¬ pairIndex (i / 2 ^ k) < layer.length →
      ∃ x next, layer[i / 2 ^ k]? = some x ∧
        (MerkleTree.new P items).layers[k + 1]? = some next ∧
        next[i / 2 ^ k / 2]? = some (hashPair P x (some x))) := by
  have hlt : i / 2 ^ k < layer.length := by
    rw [new_layers] at hl
    exact chain_index_lt P k _ _ i layer (by simpa using hi) hl
  refine ⟨hlt, pairIndex_outside_iff _ _ hlt, ?_⟩
  intro hout
  have hk1 : k + 1 < (MerkleTree.new P items).layers.length := by omega
  obtain ⟨next, hnext⟩ : ∃ next, (MerkleTree.new P items).layers[k + 1]? = some next :=
    ⟨_, List.getElem?_eq_getElem hk1⟩
  refine ⟨layer[i / 2 ^ k], next, List.getElem?_eq_getElem hlt, hnext, ?_⟩
  have hc : next = nextLayer P layer := by
    rw [new_layers] at hl hnext
    exact chain_consecutive P _ _ k layer _ hl hnext
  rw [hc, nextLayer_path P layer (i / 2 ^ k) _ (List.getElem?_eq_getElem hlt),
    (opAt_eq_self_iff layer _).2 hout]
  rfl

/-- Witness for C15: the five names, leaf 4 at level 0, where the sibling is missing. -/
theorem path_in_bounds_witness :
    4 < names.length ∧
    (4 / 2 ^ 0 < (names.map (hashData termSha)).length ∧
    (¬ pairIndex (4 / 2 ^ 0) < (names.map (hashData termSha)).length ↔
      (4 / 2 ^ 0) % 2 = 0 ∧ (names.map (hashData termSha)).length % 2 = 1 ∧
        4 / 2 ^ 0 = (names.map (hashData termSha)).length - 1) ∧
    (¬ pairIndex (4 / 2 ^ 0) < (names.map (hashData termSha)).length →
      ∃ x next, (names.map (hashData termSha))[4 / 2 ^ 0]? = some x ∧
        (MerkleTree.new termSha names).layers[0 + 1]? = some next ∧
        next[4 / 2 ^ 0 / 2]? = some (hashPair termSha x (some x)))) :=
  ⟨by decide,
    path_in_bounds termSha names 4 0 (names.map (hashData termSha)) (by decide) (by decide)
      (by decide)⟩

/-- Claim C16. In a tree built from at least two items, for a valid leaf index `i`: the layer
directly below the root has exactly two elements, `getProof(i)` has at least one step and at
most `layers.length - 1`, it has `layers.length - 1` steps exactly when no level on the path
is self-paired, and the number of missing steps is the number of self-paired levels. -/
theorem getProof_length_bounds (P : Sha I B D) (items : List I) (i : Nat)
    (hn : 2 ≤ items.length) (hi : i < items.length) :
    (∃ pen, (MerkleTree.new P items).layers[(MerkleTree.new P items).layers.length - 2]?
        = some pen ∧ pen.length = 2) ∧
    1 ≤ ((MerkleTree.new P items).getProof i).length ∧
    ((MerkleTree.new P items).getProof i).length ≤ (MerkleTree.new P items).layers.length - 1 ∧
    (((MerkleTree.new P items).getProof i).length = (MerkleTree.new P items).layers.length - 1
      ↔ selfPairedLevels (MerkleTree.new P items).layers i = []) ∧
    ((MerkleTree.new P items).getProof i).length
        + (selfPairedLevels (MerkleTree.new P items).layers i).length
      = (MerkleTree.new P items).layers.length - 1 := by
  have hadd := getProof_length_add (MerkleTree.new P items) i
  have hpen : ∃ pen, (MerkleTree.new P items).layers[
      (MerkleTree.new P items).layers.length - 2]? = some pen ∧ pen.length = 2 := by
    rw [new_layers]
    exact chain_below_top P _ _ (Nat.le_refl _) (by simpa using hn)
  have hlen2 : 2 ≤ (MerkleTree.new P items).layers.length := by
    rw [new_layers, List.length_cons, layersAbove_length P _ _ (Nat.le_refl _)]
    have : 0 < Nat.clog 2 (items.map (hashData P)).length :=
      Nat.clog_pos (by omega) (by simpa using hn)
    omega
  refine ⟨hpen, ?_, by omega, ?_, hadd⟩
  · obtain ⟨pen, hp, hpl⟩ := hpen
    have hc : i / 2 ^ ((MerkleTree.new P items).layers.length - 2) < pen.length := by
      rw [new_layers] at hp ⊢
      exact chain_index_lt P _ _ _ i pen (by simpa using hi) hp
    have hin : pairIndex (i / 2 ^ ((MerkleTree.new P items).layers.length - 2))
        < pen.length := by
      by_contra hout
      have := (pairIndex_outside_iff _ _ hc).1 hout
      omega
    have hsub : (selfPairedLevels (MerkleTree.new P items).layers i).length
        < (List.range ((MerkleTree.new P items).layers.length - 1)).length := by
      unfold selfPairedLevels
      apply List.length_filter_lt_length_iff_exists.2
      exact ⟨(MerkleTree.new P items).layers.length - 2, List.mem_range.2 (by omega),
        by simpa [hp] using hin⟩
    rw [List.length_range] at hsub
    omega
  · rw [← List.length_eq_zero]
    omega

/-- Witness for C16: the five names, leaf 4, whose proof has one step for three levels. -/
theorem getProof_length_bounds_witness :
    2 ≤ names.length ∧ 4 < names.length ∧
    selfPairedLevels (MerkleTree.new termSha names).layers 4 = [0, 1] ∧
    ((∃ pen, (MerkleTree.new termSha names).layers[
        (MerkleTree.new termSha names).layers.length - 2]? = some pen ∧ pen.length = 2) ∧
    1 ≤ ((MerkleTree.new termSha names).getProof 4).length ∧
    ((MerkleTree.new termSha names).getProof 4).length
      ≤ (MerkleTree.new termSha names).layers.length - 1 ∧
    (((MerkleTree.new termSha names).getProof 4).length
        = (MerkleTree.new termSha names).layers.length - 1
      ↔ selfPairedLevels (MerkleTree.new termSha names).layers 4 = []) ∧
    ((MerkleTree.new termSha names).getProof 4).length
        + (selfPairedLevels (MerkleTree.new termSha names).layers 4).length
      = (MerkleTree.new termSha names).layers.length - 1) :=
  ⟨by decide, by decide, by decide,
    getProof_length_bounds termSha names 4 (by decide) (by decide)⟩

/-- Claim C17. For a tree built from `n >= 1` items the loop of `buildTree` terminates: any
number of iterations from `n` on gives the same layers, and the last layer has one element.
The number of layers is `ceil(log2(n)) + 1`, every proof has at most `ceil(log2(n))` steps
and the proof of leaf 0 has exactly that many. -/
theorem layers_length_clog (P : Sha I B D) (items : List I) (hn : 1 ≤ items.length) :
    (∀ fuel, items.length ≤ fuel →
      buildLoop P fuel [items.map (hashData P)] = (MerkleTree.new P items).layers) ∧
    (∃ top, (MerkleTree.new P items).layers[(MerkleTree.new P items).layers.length - 1]?
        = some top ∧ top.length = 1) ∧
    (MerkleTree.new P items).layers.length = Nat.clog 2 items.length + 1 ∧
    (∀ i, ((MerkleTree.new P items).getProof i).length ≤ Nat.clog 2 items.length) ∧
    ((MerkleTree.new P items).getProof 0).length = Nat.clog 2 items.length := by
  have hlen : (MerkleTree.new P items).layers.length = Nat.clog 2 items.length + 1 := by
    rw [new_layers, List.length_cons, layersAbove_length P _ _ (Nat.le_refl _)]
    simp
  have hne : items.map (hashData P) ≠ [] := by
    intro h
    have h2 : items = [] := by simpa using h
    subst h2
    simp at hn
  refine ⟨?_, ?_, hlen, ?_, ?_⟩
  · intro fuel hf
    have h := buildLoop_append P fuel [] (items.map (hashData P))
    simp only [List.nil_append] at h
    rw [h, new_layers,
      layersAbove_fuel P fuel (items.map (hashData P)).length _ (by simpa using hf)
        (Nat.le_refl _)]
  · rw [new_layers]
    obtain ⟨r, hr⟩ := chain_top P _ (items.map (hashData P)) (Nat.le_refl _) hne
    exact ⟨[r], hr, rfl⟩
  · intro i
    have := getProof_length_add (MerkleTree.new P items) i
    omega
  · have h := opStep_length_add (pathOps (MerkleTree.new P items).layers 0)
    have hz : (pathOps (MerkleTree.new P items).layers 0).countP PathOp.isSelf = 0 := by
      rw [List.countP_eq_zero]
      intro o ho hs
      cases o with
      | self =>
        rw [new_layers] at ho
        exact pathOps_zero P _ _ ho
      | sibling s => simp [PathOp.isSelf] at hs
    rw [hz, pathOps_length] at h
    simp only [MerkleTree.getProof]
    rw [getProofLoop_eq_ops]
    omega

/-- Witness for C17: the five names give `ceil(log2(5)) + 1 = 4` layers. -/
theorem layers_length_clog_witness :
    1 ≤ names.length ∧ Nat.clog 2 names.length = 3 ∧
    (MerkleTree.new termSha names).layers.length = 4 ∧
    ((∀ fuel, names.length ≤ fuel →
      buildLoop termSha fuel [names.map (hashData termSha)]
        = (MerkleTree.new termSha names).layers) ∧
    (∃ top, (MerkleTree.new termSha names).layers[
        (MerkleTree.new termSha names).layers.length - 1]? = some top ∧ top.length = 1) ∧
    (MerkleTree.new termSha names).layers.length = Nat.clog 2 names.length + 1 ∧
    (∀ i, ((MerkleTree.new termSha names).getProof i).length ≤ Nat.clog 2 names.length) ∧
    ((MerkleTree.new termSha names).getProof 0).length = Nat.clog 2 names.length) :=
  ⟨by decide, by simp [names, Nat.clog], by decide,
    layers_length_clog termSha names (by decide)⟩

/-- Claim C18. For every hash function and every list `xs` of odd length at least 3 with
last item `last`, the trees built from `xs` and from `xs ++ [last]` have the same layers from
layer 1 upward and the same root, although the two lists differ. -/
theorem duplicate_last_collision (P : Sha I B D) (xs : List I) (last : I)
    (hodd : xs.length % 2 = 1) (h3 : 3 ≤ xs.length) (hlast : xs.getLast? = some last) :
    (MerkleTree.new P xs).layers.tail = (MerkleTree.new P (xs ++ [last])).layers.tail ∧
    (MerkleTree.new P xs).getRoot = (MerkleTree.new P (xs ++ [last])).getRoot ∧
    xs ≠ xs ++ [last] := by
  obtain ⟨ys, hys⟩ := List.getLast?_eq_some_iff.1 hlast
  subst hys
  have hy : (ys.map (hashData P)).length % 2 = 0 := by
    simp only [List.length_append, List.length_singleton, List.length_map] at hodd ⊢
    omega
  have hylen : 2 ≤ ys.length := by
    simp only [List.length_append, List.length_singleton] at h3
    omega
  have hnext : nextLayer P ((ys ++ [last] ++ [last]).map (hashData P))
      = nextLayer P ((ys ++ [last]).map (hashData P)) := by
    have e1 : (ys ++ [last] ++ [last]).map (hashData P)
        = ys.map (hashData P) ++ [hashData P last, hashData P last] := by simp
    have e2 : (ys ++ [last]).map (hashData P)
        = ys.map (hashData P) ++ [hashData P last] := by simp
    rw [e1, e2, nextLayer_append_even P _ _ hy, nextLayer_append_even P _ _ hy]
    simp [nextLayer]
  have h1 : 1 < ((ys ++ [last]).map (hashData P)).length := by simp; omega
  have h2 : 1 < ((ys ++ [last] ++ [last]).map (hashData P)).length := by simp
  have ea : ((ys ++ [last]).map (hashData P)).length = (ys.length) + 1 := by simp
  have eb : ((ys ++ [last] ++ [last]).map (hashData P)).length = (ys.length + 1) + 1 := by
    simp
  have hla : (MerkleTree.new P (ys ++ [last])).layers.tail
      = (MerkleTree.new P (ys ++ [last] ++ [last])).layers.tail := by
    rw [new_layers, new_layers, List.tail_cons, List.tail_cons, ea, eb,
      layersAbove_long P _ _ h1, layersAbove_long P _ _ h2, hnext]
    congr 1
    apply layersAbove_fuel
    · rw [nextLayer_length, ea]; omega
    · rw [nextLayer_length, ea]; omega
  refine ⟨hla, ?_, ?_⟩
  · rw [getRoot_eq_topOf, getRoot_eq_topOf]
    rw [new_layers, new_layers] at hla ⊢
    rw [ea, eb, layersAbove_long P _ _ h1, layersAbove_long P _ _ h2] at hla ⊢
    rw [topOf_cons, topOf_cons]
    simp only [List.tail_cons] at hla
    rw [hla]
  · intro h
    have := congrArg List.length h
    simp at this

/-- Witness for C18: `["A", "B", "C"]` and `["A", "B", "C", "C"]`. -/
theorem duplicate_last_collision_witness :
    ["A", "B", "C"].length % 2 = 1 ∧ 3 ≤ ["A", "B", "C"].length ∧
    (MerkleTree.new termSha ["A", "B", "C"]).layers.tail
      = (MerkleTree.new termSha (["A", "B", "C"] ++ ["C"])).layers.tail ∧
    (MerkleTree.new termSha ["A", "B", "C"]).getRoot
      = (MerkleTree.new termSha (["A", "B", "C"] ++ ["C"])).getRoot ∧
    ["A", "B", "C"] ≠ ["A", "B", "C"] ++ ["C"] :=
  ⟨by decide, by decide,
    duplicate_last_collision termSha ["A", "B", "C"] "C" (by decide) (by decide)
      (by decide)⟩

/-- Claim C19. For every hash function and every list of exactly `2 ^ k` items, every layer
except the root layer has even length, and for every leaf index `i < 2 ^ k` the proof
`getProof(i)` has exactly `k` steps and
`verifyProof(leaves[i], getProof(i), getRoot())` is `true`. -/
theorem power_of_two_provable [DecidableEq D] (P : Sha I B D) (items : List I) (k : Nat)
    (hlen : items.length = 2 ^ k) :
    (∀ j layer, j < (MerkleTree.new P items).layers.length - 1 →
      (MerkleTree.new P items).layers[j]? = some layer → layer.length % 2 = 0) ∧
    ∀ i, i < 2 ^ k →
      ((MerkleTree.new P items).getProof i).length = k ∧
      ∃ leaf root, (MerkleTree.new P items).leaves[i]? = some leaf ∧
        (MerkleTree.new P items).getRoot = some root ∧
        verifyProof P leaf ((MerkleTree.new P items).getProof i) root = true := by
  have hchain := chain_pow_two P k (items.map (hashData P)).length (items.map (hashData P))
    (by simpa using hlen) (Nat.le_refl _)
  rw [← new_layers] at hchain
  obtain ⟨hL, hE⟩ := hchain
  refine ⟨hE, ?_⟩
  intro i hi
  have hi2 : i < items.length := by omega
  have hno : PathOp.self ∉ pathOps (MerkleTree.new P items).layers i := by
    intro hs
    obtain ⟨j, layer, hj, hl, hp⟩ := (self_mem_pathOps _ _).1 hs
    have hev := hE j layer hj hl
    have hlt : i / 2 ^ j < layer.length := by
      rw [new_layers] at hl
      exact chain_index_lt P j _ _ i layer (by simpa using hi2) hl
    have := (pairIndex_outside_iff _ _ hlt).1 hp
    omega
  obtain ⟨hlenp, hver⟩ := verifyProof_no_self P items i hi2 hno
  exact ⟨by omega, hver⟩

/-- Witness for C19: four names, `k = 2`. -/
theorem power_of_two_provable_witness :
    ["Debo", "Kenneth", "Manji", "Jerry"].length = 2 ^ 2 ∧
    ((∀ j layer,
      j < (MerkleTree.new termSha ["Debo", "Kenneth", "Manji", "Jerry"]).layers.length - 1 →
      (MerkleTree.new termSha ["Debo", "Kenneth", "Manji", "Jerry"]).layers[j]? = some layer →
      layer.length % 2 = 0) ∧
    ∀ i, i < 2 ^ 2 →
      ((MerkleTree.new termSha ["Debo", "Kenneth", "Manji", "Jerry"]).getProof i).length = 2 ∧
      ∃ leaf root,
        (MerkleTree.new termSha ["Debo", "Kenneth", "Manji", "Jerry"]).leaves[i]? = some leaf ∧
        (MerkleTree.new termSha ["Debo", "Kenneth", "Manji", "Jerry"]).getRoot = some root ∧
        verifyProof termSha leaf
          ((MerkleTree.new termSha ["Debo", "Kenneth", "Manji", "Jerry"]).getProof i) root
          = true) :=
  ⟨by decide, power_of_two_provable termSha ["Debo", "Kenneth", "Manji", "Jerry"] 2 (by decide)⟩

/-- Claim C20. When neither `hashData` nor `hashPair` collides, two lists of items of the
same length `n >= 1` whose trees have the same root are equal. -/
theorem getRoot_eq_imp_eq (P : Sha I B D) (hdata : Function.Injective (hashData P))
    (hinj : PairInjective P) (xs ys : List I) (hn : 1 ≤ xs.length)
    (hlen : xs.length = ys.length)
    (hroot : (MerkleTree.new P xs).getRoot = (MerkleTree.new P ys).getRoot) : xs = ys :=
  getRoot_injective P hdata hinj xs ys (fun h => by simp [h] at hn) hlen hroot

/-- Witness for C20: the five names against themselves, in the term model. -/
theorem getRoot_eq_imp_eq_witness :
    Function.Injective (hashData termSha) ∧ PairInjective termSha ∧ 1 ≤ names.length ∧
    (MerkleTree.new termSha names).getRoot
      = (MerkleTree.new termSha ["Debo", "Kenneth", "Manji", "Jerry", "victor"]).getRoot ∧
    names = ["Debo", "Kenneth", "Manji", "Jerry", "victor"] :=
  ⟨termSha_hashData_injective, termSha_pairInjective, by decide, by decide,
    getRoot_eq_imp_eq termSha termSha_hashData_injective termSha_pairInjective names
      ["Debo", "Kenneth", "Manji", "Jerry", "victor"] (by decide) (by decide) (by decide)⟩

end Height

end Merkle
